import Mathlib

/-!
# Rectangular multiresolution foveation (MMF): the geometry of `mmf.h`

A shallow embedding of `src/mmf.h`.

* C++ `int` is modelled by `Int`; `/` on `int` truncates toward zero, which is
  `Int.tdiv`.  Signed overflow is undefined behaviour in C++, so every
  statement below is about inputs whose intermediate products fit in `int`.
* A division whose divisor is zero has no result: `cdiv` returns `none`.
* An image (`cv::Mat`) is a width, a height and a pixel function.  The OpenCV
  operations the header calls (`img(Rect)`, `resize`, `copyTo`, `clone`) are
  external to the repository; they are modelled by their contracts.
-/

namespace MMF

/-! ## Data model -/

/-- Integer pair, `cv::Point`. -/
structure Point where
  x : Int
  y : Int
  deriving DecidableEq, Repr

/-- Axis-aligned rectangle, `cv::Rect(x, y, width, height)`. -/
structure Rect where
  x : Int
  y : Int
  width : Int
  height : Int
  deriving DecidableEq, Repr

/-- C++ `a / b` on `int`: no result for a zero divisor, truncation otherwise. -/
def cdiv (a b : Int) : Option Int :=
  if b = 0 then none else some (Int.tdiv a b)

/-! ## Geometry engine (`getDelta`, `getSize`, `mapLevel2Image`) -/

/-- Embedding of `MMF::getDelta` (mmf.h, lines 195-203). -/
def getDelta (k m : Int) (w u f : Point) : Option Point := do
  let dx ← cdiv (k * (u.x - w.x + (2 * f.x))) (2 * m)
  let dy ← cdiv (k * (u.y - w.y + (2 * f.y))) (2 * m)
  pure ⟨dx, dy⟩

/-- Embedding of `MMF::getSize` (mmf.h, lines 220-228). -/
def getSize (k m : Int) (w u : Point) : Option Point := do
  let sx ← cdiv ((m * u.x) + (w.x * k) - (k * u.x)) m
  let sy ← cdiv ((m * u.y) + (w.y * k) - (k * u.y)) m
  pure ⟨sx, sy⟩

/-- Embedding of `MMF::mapLevel2Image` (mmf.h, lines 244-252). -/
def mapLevel2Image (k m : Int) (w u f px : Point) : Option Point := do
  let _px ← cdiv ((k * w.x) * (u.x - w.x) + (2 * k * w.x * f.x)
      + (2 * px.x) * ((m * u.x) - (k * u.x) + (k * w.x))) (2 * m * w.x)
  let _py ← cdiv ((k * w.y) * (u.y - w.y) + (2 * k * w.y * f.y)
      + (2 * px.y) * ((m * u.y) - (k * u.y) + (k * w.y))) (2 * m * w.y)
  pure ⟨_px, _py⟩

/-- The crop rectangle `Rect( d.x, d.y, s.x, s.y )` that `MMF_CPU` extracts
(mmf.h, lines 270-272). -/
def cropRect (k m : Int) (w u f : Point) : Option Rect := do
  let d ← getDelta k m w u f
  let s ← getSize k m w u
  pure ⟨d.x, d.y, s.x, s.y⟩

/-- The destination rectangle `roi` that `foveated` builds for level `k`
(mmf.h, lines 373-379). -/
def destRect (k m : Int) (w u f : Point) : Option Rect := do
  let initial ← mapLevel2Image k m w u f ⟨0, 0⟩
  let final ← mapLevel2Image k m w u f ⟨w.x, w.y⟩
  pure ⟨initial.x, initial.y, final.x - initial.x, final.y - initial.y⟩

/-- Rectangle `a` lies inside rectangle `b` (both half-open on the far edge). -/
def Rect.inside (a b : Rect) : Prop :=
  b.x ≤ a.x ∧ a.x + a.width ≤ b.x + b.width ∧
  b.y ≤ a.y ∧ a.y + a.height ≤ b.y + b.height

instance (a b : Rect) : Decidable (a.inside b) := by
  unfold Rect.inside; infer_instance

/-- Rectangle `r` is usable as a region of an image of size `u`: its origin
is non-negative, its extent is at least one pixel on each axis, and it ends
within `u`. -/
def Rect.safeIn (r : Rect) (u : Point) : Prop :=
  0 ≤ r.x ∧ 0 ≤ r.y ∧ 1 ≤ r.width ∧ 1 ≤ r.height ∧
  r.x + r.width ≤ u.x ∧ r.y + r.height ≤ u.y

instance (r : Rect) (u : Point) : Decidable (r.safeIn u) := by
  unfold Rect.safeIn; infer_instance

/-- The full image rectangle for an image of size `u`. -/
def fullRect (u : Point) : Rect := ⟨0, 0, u.x, u.y⟩

/-! ## Images and the external image operations -/

/-- An image (`cv::Mat`): `cols` by `rows` pixels of type `α`; `pix x y` is the
pixel in column `x`, row `y`. -/
structure Mat (α : Type) where
  cols : Int
  rows : Int
  pix : Int → Int → α

/-- Modelled from the spec: `extractRegion(image, rect)`, applied by the
header as `img( Rect(...) )`; it fails when `rect` is not fully inside the
image.  The OpenCV implementation is not part of the repository. -/
def Mat.roi {α : Type} (img : Mat α) (r : Rect) : Option (Mat α) :=
  if 0 ≤ r.x ∧ 0 ≤ r.width ∧ r.x + r.width ≤ img.cols ∧
     0 ≤ r.y ∧ 0 ≤ r.height ∧ r.y + r.height ≤ img.rows then
    some ⟨r.width, r.height, fun i j => img.pix (r.x + i) (r.y + j)⟩
  else none

/-- Modelled from the spec: `resize(image, targetSize, bilinear)`; it fails
when the target size has no positive extent, or the source is empty.  The
interpolation itself is the parameter `interp`, which gives the pixels of the
resized image; the OpenCV implementation is not part of the repository. -/
def resize {α : Type} (interp : Mat α → Int → Int → Int → Int → α)
    (src : Mat α) (width height : Int) : Option (Mat α) :=
  if 0 < width ∧ 0 < height ∧ 0 < src.cols ∧ 0 < src.rows then
    some ⟨width, height, interp src width height⟩
  else none

/-- Modelled from the spec: `copyInto(destImage, destRect, srcImage)`, applied
by the header as `src.copyTo( dst( roi ) )`; it needs `roi` inside `dst` and
`src` of the size of `roi`, and overwrites the pixels of `dst` inside `roi`.
The OpenCV implementation is not part of the repository. -/
def copyTo {α : Type} (src dst : Mat α) (r : Rect) : Option (Mat α) :=
  if 0 ≤ r.x ∧ 0 ≤ r.width ∧ r.x + r.width ≤ dst.cols ∧
     0 ≤ r.y ∧ 0 ≤ r.height ∧ r.y + r.height ≤ dst.rows ∧
     src.cols = r.width ∧ src.rows = r.height then
    some ⟨dst.cols, dst.rows, fun i j =>
      if r.x ≤ i ∧ i < r.x + r.width ∧ r.y ≤ j ∧ j < r.y + r.height then
        src.pix (i - r.x) (j - r.y)
      else dst.pix i j⟩
  else none

/-- Pixel `(i, j)` lies in rectangle `r`. -/
def Rect.mem (r : Rect) (i j : Int) : Prop :=
  r.x ≤ i ∧ i < r.x + r.width ∧ r.y ≤ j ∧ j < r.y + r.height

instance (r : Rect) (i j : Int) : Decidable (r.mem i j) := by
  unfold Rect.mem; infer_instance

/-! ## Level builder and driver (`MMF_CPU`, `foveated`) -/

/-- Embedding of `MMF::MMF_CPU` (mmf.h, lines 268-280). -/
def MMF_CPU {α : Type} (interp : Mat α → Int → Int → Int → Int → α)
    (img : Mat α) (k m : Int) (w u f : Point) : Option (Mat α) := do
  let d ← getDelta k m w u f
  let s ← getSize k m w u
  let imgLevel ← img.roi ⟨d.x, d.y, s.x, s.y⟩
  if k < m then
    resize interp imgLevel w.x w.y
  else
    pure imgLevel

/-- The content `foveated` writes for level `k`: the level of `MMF_CPU`,
resized to the extent of the destination rectangle `roi` when `k < m`
(mmf.h, lines 371-385). -/
def levelContent {α : Type} (interp : Mat α → Int → Int → Int → Int → α)
    (img : Mat α) (k m : Int) (w u f : Point) (roi : Rect) : Option (Mat α) := do
  let imgLevel ← MMF_CPU interp img k m w u f
  if k < m then
    resize interp imgLevel roi.width roi.height
  else
    pure imgLevel

/-- One iteration of the loop of `foveated` (mmf.h, lines 370-386): the body
for level `k`, acting on the image `imgFoveated` composed so far. -/
def foveatedStep {α : Type} (interp : Mat α → Int → Int → Int → Int → α)
    (img : Mat α) (m : Int) (w u f : Point) (imgFoveated : Mat α) (k : Int) :
    Option (Mat α) := do
  let imgLevel ← MMF_CPU interp img k m w u f
  let initial ← mapLevel2Image k m w u f ⟨0, 0⟩
  let final ← mapLevel2Image k m w u f ⟨w.x, w.y⟩
  let roi : Rect := ⟨initial.x, initial.y, final.x - initial.x, final.y - initial.y⟩
  if k < m then
    let imgLevel ← resize interp imgLevel (final.x - initial.x) (final.y - initial.y)
    copyTo imgLevel imgFoveated roi
  else
    copyTo imgLevel imgFoveated roi

/-- The level indices `k = 0, 1, ..., m` visited by `for ( int k = 0; k <= m; k++ )`,
in the order of the loop (none when `m < 0`). -/
def levels (m : Int) : List Int :=
  (List.range (m + 1).toNat).map Int.ofNat

/-- Embedding of `MMF::foveated` (mmf.h, lines 363-419).  `method == 0` is the
CPU path; under OpenMP the schedule `static, m+1` puts all `m + 1` iterations
in one chunk, so they run in loop order.  The other path is the build without
CUDA, whose body is empty: the clone of the input is returned. -/
def foveated {α : Type} (interp : Mat α → Int → Int → Int → Int → α)
    (img : Mat α) (m : Int) (w u f : Point) (method : Int) : Option (Mat α) :=
  let imgFoveated := img
  if method = 0 then
    (levels m).foldlM (foveatedStep interp img m w u f) imgFoveated
  else
    some imgFoveated

/-! ## Test data -/

/-- A concrete resampler for evaluating the driver on small images: every
pixel of the result is the integer mean of the pixels of the source.  On a
2 by 2 source reduced to 1 by 1, and on a 1 by 1 source enlarged, this is what
bilinear interpolation yields. -/
def meanInterp (src : Mat Int) (_width _height _i _j : Int) : Int :=
  ((List.range src.cols.toNat).map (fun i =>
    ((List.range src.rows.toNat).map (fun j => src.pix i j)).sum)).sum
    / (src.cols * src.rows)

/-- The 2 by 2 test image with pixels 10, 20 (top row) and 30, 40. -/
def img22 : Mat Int := ⟨2, 2, fun i j => 10 + 10 * i + 20 * j⟩

/-- The 3 by 3 test image with pixels 1 to 9, row by row. -/
def img33 : Mat Int := ⟨3, 3, fun i j => 1 + i + 3 * j⟩

/-! ## Truncating division -/

theorem tdiv_mul_left_cancel (c a b : Int) (hc : 0 < c) (hb : 0 < b) :
    Int.tdiv (c * a) (c * b) = Int.tdiv a b := by
  have key : ∀ n : Int, 0 ≤ n → Int.tdiv (c * n) (c * b) = Int.tdiv n b := by
    intro n hn
    rw [Int.tdiv_eq_ediv (Int.mul_nonneg hc.le hn) (Int.mul_nonneg hc.le hb.le),
      Int.tdiv_eq_ediv hn hb.le, Int.mul_ediv_mul_of_pos _ _ hc]
  rcases le_or_lt 0 a with ha | ha
  · exact key a ha
  · have h := key (-a) (by omega)
    rw [Int.mul_neg, Int.neg_tdiv, Int.neg_tdiv] at h
    omega

theorem tdiv_mono (a b c : Int) (hc : 0 < c) (h : a ≤ b) :
    Int.tdiv a c ≤ Int.tdiv b c := by
  rcases le_or_lt 0 a with ha | ha
  · rw [Int.tdiv_eq_ediv ha hc.le, Int.tdiv_eq_ediv (le_trans ha h) hc.le]
    exact Int.ediv_le_ediv hc h
  · have h1 : Int.tdiv a c = -((-a) / c) := by
      have := Int.neg_tdiv (-a) c
      rw [Int.neg_neg] at this
      rw [this, Int.tdiv_eq_ediv (by omega) hc.le]
    rcases le_or_lt 0 b with hb | hb
    · have h2 : 0 ≤ Int.tdiv b c := Int.tdiv_nonneg hb hc.le
      have h3 : 0 ≤ (-a) / c := Int.ediv_nonneg (by omega) hc.le
      omega
    · have h2 : Int.tdiv b c = -((-b) / c) := by
        have := Int.neg_tdiv (-b) c
        rw [Int.neg_neg] at this
        rw [this, Int.tdiv_eq_ediv (by omega) hc.le]
      have h3 : (-b) / c ≤ (-a) / c := Int.ediv_le_ediv hc (by omega)
      omega

/-! ## The engine, evaluated -/

theorem cdiv_of_ne (a b : Int) (hb : b ≠ 0) : cdiv a b = some (Int.tdiv a b) := by
  simp [cdiv, hb]

theorem getDelta_eq (k m : Int) (w u f : Point) (hm : m ≠ 0) :
    getDelta k m w u f = some ⟨Int.tdiv (k * (u.x - w.x + 2 * f.x)) (2 * m),
      Int.tdiv (k * (u.y - w.y + 2 * f.y)) (2 * m)⟩ := by
  have h2 : (2 * m) ≠ 0 := by omega
  simp [getDelta, cdiv_of_ne _ _ h2]

theorem getSize_eq (k m : Int) (w u : Point) (hm : m ≠ 0) :
    getSize k m w u = some ⟨Int.tdiv (m * u.x + w.x * k - k * u.x) m,
      Int.tdiv (m * u.y + w.y * k - k * u.y) m⟩ := by
  simp [getSize, cdiv_of_ne _ _ hm]

theorem mapLevel2Image_eq (k m : Int) (w u f px : Point) (hm : m ≠ 0)
    (hwx : w.x ≠ 0) (hwy : w.y ≠ 0) :
    mapLevel2Image k m w u f px =
      some ⟨Int.tdiv ((k * w.x) * (u.x - w.x) + (2 * k * w.x * f.x)
          + (2 * px.x) * ((m * u.x) - (k * u.x) + (k * w.x))) (2 * m * w.x),
        Int.tdiv ((k * w.y) * (u.y - w.y) + (2 * k * w.y * f.y)
          + (2 * px.y) * ((m * u.y) - (k * u.y) + (k * w.y))) (2 * m * w.y)⟩ := by
  have hx : (2 * m * w.x) ≠ 0 := by
    simp only [ne_eq, mul_eq_zero, not_or]; omega
  have hy : (2 * m * w.y) ≠ 0 := by
    simp only [ne_eq, mul_eq_zero, not_or]; omega
  simp [mapLevel2Image, cdiv_of_ne _ _ hx, cdiv_of_ne _ _ hy]

/-- The origin coordinate of the destination rectangle, with the common
factor `w` cancelled. -/
theorem map_origin (k m w u f : Int) (hm : 0 < m) (hw : 0 < w) :
    Int.tdiv ((k * w) * (u - w) + (2 * k * w * f)
      + (2 * 0) * ((m * u) - (k * u) + (k * w))) (2 * m * w)
    = Int.tdiv (k * (u - w + 2 * f)) (2 * m) := by
  rw [← tdiv_mul_left_cancel w (k * (u - w + 2 * f)) (2 * m) hw (by omega)]
  congr 1 <;> ring

/-- The far-corner coordinate of the destination rectangle, with the common
factor `w` cancelled. -/
theorem map_corner (k m w u f : Int) (hm : 0 < m) (hw : 0 < w) :
    Int.tdiv ((k * w) * (u - w) + (2 * k * w * f)
      + (2 * w) * ((m * u) - (k * u) + (k * w))) (2 * m * w)
    = Int.tdiv (2 * m * u - k * (u - w - 2 * f)) (2 * m) := by
  rw [← tdiv_mul_left_cancel w (2 * m * u - k * (u - w - 2 * f)) (2 * m) hw (by omega)]
  congr 1 <;> ring

/-! ## One axis at a time -/

theorem size_num (k m w u : Int) : m * u + w * k - k * u = m * u - k * (u - w) := by
  ring

theorem size_antitone (k k' m w u : Int) (hm : 0 < m) (hwu : w ≤ u)
    (hk : k ≤ k') :
    Int.tdiv (m * u + w * k' - k' * u) m ≤ Int.tdiv (m * u + w * k - k * u) m := by
  apply tdiv_mono _ _ _ hm
  rw [size_num, size_num]
  have : k * (u - w) ≤ k' * (u - w) := Int.mul_le_mul_of_nonneg_right hk (by omega)
  omega

theorem size_zero (m w u : Int) (hm : m ≠ 0) :
    Int.tdiv (m * u + w * 0 - 0 * u) m = u := by
  have : m * u + w * 0 - 0 * u = u * m := by ring
  rw [this, Int.mul_tdiv_cancel _ hm]

theorem size_last (m w u : Int) (hm : m ≠ 0) :
    Int.tdiv (m * u + w * m - m * u) m = w := by
  have : m * u + w * m - m * u = w * m := by ring
  rw [this, Int.mul_tdiv_cancel _ hm]

theorem size_ge (k m w u : Int) (hm : 0 < m) (hwu : w ≤ u) (hkm : k ≤ m) :
    w ≤ Int.tdiv (m * u + w * k - k * u) m := by
  have h := size_antitone k m m w u hm hwu hkm
  rwa [size_last m w u (by omega)] at h

theorem size_le (k m w u : Int) (hm : 0 < m) (hwu : w ≤ u) (hk : 0 ≤ k) :
    Int.tdiv (m * u + w * k - k * u) m ≤ u := by
  have h := size_antitone 0 k m w u hm hwu hk
  rwa [size_zero m w u (by omega)] at h

theorem origin_nonneg (k m w u f : Int) (hm : 0 < m) (hk : 0 ≤ k)
    (hf : 0 ≤ u - w + 2 * f) : 0 ≤ Int.tdiv (k * (u - w + 2 * f)) (2 * m) :=
  Int.tdiv_nonneg (Int.mul_nonneg hk hf) (by omega)

theorem origin_mono (k k' m w u f : Int) (hm : 0 < m) (hk : k ≤ k')
    (hf : 0 ≤ u - w + 2 * f) :
    Int.tdiv (k * (u - w + 2 * f)) (2 * m) ≤ Int.tdiv (k' * (u - w + 2 * f)) (2 * m) :=
  tdiv_mono _ _ _ (by omega) (Int.mul_le_mul_of_nonneg_right hk hf)

theorem corner_antitone (k k' m w u f : Int) (hm : 0 < m) (hk : k ≤ k')
    (hf : 2 * f ≤ u - w) :
    Int.tdiv (2 * m * u - k' * (u - w - 2 * f)) (2 * m)
      ≤ Int.tdiv (2 * m * u - k * (u - w - 2 * f)) (2 * m) := by
  apply tdiv_mono _ _ _ (by omega)
  have : k * (u - w - 2 * f) ≤ k' * (u - w - 2 * f) :=
    Int.mul_le_mul_of_nonneg_right hk (by omega)
  omega

theorem corner_zero (m w u f : Int) (hm : 0 < m) :
    Int.tdiv (2 * m * u - 0 * (u - w - 2 * f)) (2 * m) = u := by
  have : 2 * m * u - 0 * (u - w - 2 * f) = u * (2 * m) := by ring
  rw [this, Int.mul_tdiv_cancel _ (by omega)]

theorem corner_le (k m w u f : Int) (hm : 0 < m) (hk : 0 ≤ k) (hf : 2 * f ≤ u - w) :
    Int.tdiv (2 * m * u - k * (u - w - 2 * f)) (2 * m) ≤ u := by
  have h := corner_antitone 0 k m w u f hm hk hf
  rwa [corner_zero m w u f hm] at h

/-- The destination extent is at least `w` when the fovea offset keeps the
origin numerator non-negative. -/
theorem extent_ge (k m w u f : Int) (hm : 0 < m) (hk : 0 ≤ k) (hkm : k ≤ m)
    (hw : 0 ≤ w) (hwu : w ≤ u) (hf : 0 ≤ u - w + 2 * f) :
    Int.tdiv (k * (u - w + 2 * f)) (2 * m) + w
      ≤ Int.tdiv (2 * m * u - k * (u - w - 2 * f)) (2 * m) := by
  have h2m : (0 : Int) < 2 * m := by omega
  have hn : 0 ≤ k * (u - w + 2 * f) := Int.mul_nonneg hk hf
  have hshift : Int.tdiv (k * (u - w + 2 * f)) (2 * m) + w
      = Int.tdiv (k * (u - w + 2 * f) + w * (2 * m)) (2 * m) := by
    have h : 0 ≤ k * (u - w + 2 * f) + w * (2 * m) :=
      Int.add_nonneg hn (Int.mul_nonneg hw h2m.le)
    rw [Int.tdiv_eq_ediv hn h2m.le, Int.tdiv_eq_ediv h h2m.le,
      Int.add_mul_ediv_right _ _ (by omega)]
  rw [hshift]
  apply tdiv_mono _ _ _ h2m
  have : k * (u - w) ≤ m * (u - w) := Int.mul_le_mul_of_nonneg_right hkm (by omega)
  nlinarith

/-- Crop origin plus crop extent stays within `u`. -/
theorem crop_within (k m w u f : Int) (hm : 0 < m) (hk : 0 ≤ k) (hkm : k ≤ m)
    (hw : 0 ≤ w) (hwu : w ≤ u) (hf0 : 0 ≤ u - w + 2 * f) (hf : 2 * f ≤ u - w) :
    Int.tdiv (k * (u - w + 2 * f)) (2 * m) + Int.tdiv (m * u + w * k - k * u) m ≤ u := by
  have h2m : (0 : Int) < 2 * m := by omega
  have hn : 0 ≤ k * (u - w + 2 * f) := Int.mul_nonneg hk hf0
  have hkb : k * (u - w) ≤ m * (u - w) := Int.mul_le_mul_of_nonneg_right hkm (by omega)
  have hs : 0 ≤ m * u + w * k - k * u := by
    rw [size_num]; nlinarith
  rw [Int.tdiv_eq_ediv hn h2m.le, Int.tdiv_eq_ediv hs hm.le]
  have h1 := Int.ediv_mul_le (k * (u - w + 2 * f)) (Int.ne_of_gt h2m)
  have h2 := Int.ediv_mul_le (m * u + w * k - k * u) (Int.ne_of_gt hm)
  have h3 : k * (2 * f) ≤ k * (u - w) := Int.mul_le_mul_of_nonneg_left hf hk
  by_contra hcon
  push_neg at hcon
  have h4 : (u + 1) * (2 * m) ≤
      (k * (u - w + 2 * f) / (2 * m) + (m * u + w * k - k * u) / m) * (2 * m) :=
    Int.mul_le_mul_of_nonneg_right (by omega) h2m.le
  nlinarith

/-! ## Rectangles, evaluated -/

theorem cropRect_eq (k m : Int) (w u f : Point) (hm : m ≠ 0) :
    cropRect k m w u f =
      some ⟨Int.tdiv (k * (u.x - w.x + 2 * f.x)) (2 * m),
        Int.tdiv (k * (u.y - w.y + 2 * f.y)) (2 * m),
        Int.tdiv (m * u.x + w.x * k - k * u.x) m,
        Int.tdiv (m * u.y + w.y * k - k * u.y) m⟩ := by
  simp [cropRect, getDelta_eq k m w u f hm, getSize_eq k m w u hm]

theorem destRect_eq (k m : Int) (w u f : Point) (hm : 0 < m)
    (hwx : 0 < w.x) (hwy : 0 < w.y) :
    destRect k m w u f =
      some ⟨Int.tdiv (k * (u.x - w.x + 2 * f.x)) (2 * m),
        Int.tdiv (k * (u.y - w.y + 2 * f.y)) (2 * m),
        Int.tdiv (2 * m * u.x - k * (u.x - w.x - 2 * f.x)) (2 * m)
          - Int.tdiv (k * (u.x - w.x + 2 * f.x)) (2 * m),
        Int.tdiv (2 * m * u.y - k * (u.y - w.y - 2 * f.y)) (2 * m)
          - Int.tdiv (k * (u.y - w.y + 2 * f.y)) (2 * m)⟩ := by
  rw [destRect, mapLevel2Image_eq k m w u f _ hm.ne' hwx.ne' hwy.ne',
    mapLevel2Image_eq k m w u f _ hm.ne' hwx.ne' hwy.ne']
  show some (Rect.mk _ _ _ _) = _
  rw [map_origin k m w.x u.x f.x hm hwx, map_origin k m w.y u.y f.y hm hwy,
    map_corner k m w.x u.x f.x hm hwx, map_corner k m w.y u.y f.y hm hwy]

/-! ## The worked example and the size schedule -/

/-- C1, as stated, fails: at `u=(512,512)`, `w=(128,128)`, `f=(256,256)`, `m=4`
none of the four values of the worked example is what the code computes. -/
theorem worked_example_refuted :
    getDelta 0 4 ⟨128, 128⟩ ⟨512, 512⟩ ⟨256, 256⟩ ≠ some ⟨192, 192⟩ ∧
    getSize 0 4 ⟨128, 128⟩ ⟨512, 512⟩ ≠ some ⟨128, 128⟩ ∧
    getDelta 4 4 ⟨128, 128⟩ ⟨512, 512⟩ ⟨256, 256⟩ ≠ some ⟨0, 0⟩ ∧
    getSize 4 4 ⟨128, 128⟩ ⟨512, 512⟩ ≠ some ⟨512, 512⟩ := by
  decide

/-- C1, amended: for `u=(512,512)`, `w=(128,128)`, `f=(256,256)`, `m=4`, level 0
has `getDelta = (0,0)` and `getSize = (512,512)`, and level 4 has
`getDelta = (448,448)` and `getSize = (128,128)`. -/
theorem worked_example_values :
    getDelta 0 4 ⟨128, 128⟩ ⟨512, 512⟩ ⟨256, 256⟩ = some ⟨0, 0⟩ ∧
    getSize 0 4 ⟨128, 128⟩ ⟨512, 512⟩ = some ⟨512, 512⟩ ∧
    getDelta 4 4 ⟨128, 128⟩ ⟨512, 512⟩ ⟨256, 256⟩ = some ⟨448, 448⟩ ∧
    getSize 4 4 ⟨128, 128⟩ ⟨512, 512⟩ = some ⟨128, 128⟩ := by
  decide

/-- C2, as stated, fails: at `m=1`, `w=(1,1)`, `u=(2,2)`, `f=(0,0)` the
destination rectangle of level 0 is the full image, that of level 1 is the
single pixel at the origin; so `R(0)` is not contained in `R(1)` and `R(m)` is
not the full image.  With `f=(2,2)` instead, `R(1) = (2,2,1,1)` is not inside
`R(0)` either, and with `w=u=(2,2)`, `f=(0,0)` the two rectangles are equal. -/
theorem dest_nesting_refuted :
    destRect 0 1 ⟨1, 1⟩ ⟨2, 2⟩ ⟨0, 0⟩ = some ⟨0, 0, 2, 2⟩ ∧
    destRect 1 1 ⟨1, 1⟩ ⟨2, 2⟩ ⟨0, 0⟩ = some ⟨0, 0, 1, 1⟩ ∧
    ¬ Rect.inside ⟨0, 0, 2, 2⟩ ⟨0, 0, 1, 1⟩ ∧
    (⟨0, 0, 1, 1⟩ : Rect) ≠ fullRect ⟨2, 2⟩ ∧
    destRect 0 1 ⟨1, 1⟩ ⟨2, 2⟩ ⟨2, 2⟩ = some ⟨0, 0, 2, 2⟩ ∧
    destRect 1 1 ⟨1, 1⟩ ⟨2, 2⟩ ⟨2, 2⟩ = some ⟨2, 2, 1, 1⟩ ∧
    ¬ Rect.inside ⟨2, 2, 1, 1⟩ ⟨0, 0, 2, 2⟩ ∧
    destRect 0 1 ⟨2, 2⟩ ⟨2, 2⟩ ⟨0, 0⟩ = destRect 1 1 ⟨2, 2⟩ ⟨2, 2⟩ ⟨0, 0⟩ := by
  decide

/-- C2, amended: for `m ≥ 1`, `1 ≤ w ≤ u` and `0 ≤ f` with `2 f ≤ u - w`
(component-wise), the destination rectangle of level 0 is exactly the full
image rectangle, and for every `0 ≤ k < m` the destination rectangle of
level `k + 1` is contained in that of level `k`. -/
theorem dest_nesting (m : Int) (w u f : Point) (hm : 1 ≤ m)
    (hwx : 1 ≤ w.x) (hwy : 1 ≤ w.y) (hfx : 0 ≤ f.x) (hfy : 0 ≤ f.y)
    (hfx' : 2 * f.x ≤ u.x - w.x) (hfy' : 2 * f.y ≤ u.y - w.y) :
    destRect 0 m w u f = some (fullRect u) ∧
    ∀ k : Int, 0 ≤ k → k < m →
      ∃ r r', destRect k m w u f = some r ∧ destRect (k + 1) m w u f = some r' ∧
        r'.inside r := by
  have hm0 : (0 : Int) < m := by omega
  have hx0 : (0 : Int) < w.x := by omega
  have hy0 : (0 : Int) < w.y := by omega
  refine ⟨?_, ?_⟩
  · rw [destRect_eq 0 m w u f hm0 hx0 hy0, corner_zero m w.x u.x f.x hm0,
      corner_zero m w.y u.y f.y hm0]
    simp [fullRect]
  · intro k _ _
    refine ⟨_, _, destRect_eq k m w u f hm0 hx0 hy0,
      destRect_eq (k + 1) m w u f hm0 hx0 hy0, ?_⟩
    have ox := origin_mono k (k + 1) m w.x u.x f.x hm0 (by omega) (by omega)
    have oy := origin_mono k (k + 1) m w.y u.y f.y hm0 (by omega) (by omega)
    have cx := corner_antitone k (k + 1) m w.x u.x f.x hm0 (by omega) hfx'
    have cy := corner_antitone k (k + 1) m w.y u.y f.y hm0 (by omega) hfy'
    simp only [Rect.inside]
    omega

/-- Witness for `dest_nesting`: `m=4`, `w=(2,2)`, `u=(10,10)`, `f=(1,1)`. -/
theorem dest_nesting_witness :
    destRect 0 4 ⟨2, 2⟩ ⟨10, 10⟩ ⟨1, 1⟩ = some (fullRect ⟨10, 10⟩) ∧
    ∀ k : Int, 0 ≤ k → k < 4 →
      ∃ r r', destRect k 4 ⟨2, 2⟩ ⟨10, 10⟩ ⟨1, 1⟩ = some r ∧
        destRect (k + 1) 4 ⟨2, 2⟩ ⟨10, 10⟩ ⟨1, 1⟩ = some r' ∧ r'.inside r :=
  dest_nesting 4 ⟨2, 2⟩ ⟨10, 10⟩ ⟨1, 1⟩ (by decide) (by decide) (by decide)
    (by decide) (by decide) (by decide) (by decide)

/-- C4, as stated, fails: at `m=1`, `w=(1,1)`, `u=(2,2)` the size of level 0 is
`(2,2)` and that of level 1 is `(1,1)`, so `getSize` decreases from level 0 to
level 1. -/
theorem size_nondecreasing_refuted :
    getSize 0 1 ⟨1, 1⟩ ⟨2, 2⟩ = some ⟨2, 2⟩ ∧
    getSize 1 1 ⟨1, 1⟩ ⟨2, 2⟩ = some ⟨1, 1⟩ ∧
    ¬ ((⟨2, 2⟩ : Point).x ≤ (⟨1, 1⟩ : Point).x) ∧
    ¬ ((⟨2, 2⟩ : Point).y ≤ (⟨1, 1⟩ : Point).y) := by
  decide

/-- C4, amended: `getSize` is component-wise non-increasing in the level index:
for `m ≥ 1`, `0 ≤ w ≤ u` and `0 ≤ k ≤ k' ≤ m`, both sizes are defined and
`getSize(k').x ≤ getSize(k).x`, `getSize(k').y ≤ getSize(k).y`. -/
theorem size_nonincreasing (k k' m : Int) (w u : Point) (hm : 1 ≤ m)
    (_hwx : 0 ≤ w.x) (_hwy : 0 ≤ w.y) (hux : w.x ≤ u.x) (huy : w.y ≤ u.y)
    (_hk : 0 ≤ k) (hkk : k ≤ k') (_hkm : k' ≤ m) :
    ∃ s s', getSize k m w u = some s ∧ getSize k' m w u = some s' ∧
      s'.x ≤ s.x ∧ s'.y ≤ s.y :=
  ⟨_, _, getSize_eq k m w u (by omega), getSize_eq k' m w u (by omega),
    size_antitone k k' m w.x u.x (by omega) hux hkk,
    size_antitone k k' m w.y u.y (by omega) huy hkk⟩

/-- Witness for `size_nonincreasing`: `m=4`, `w=(3,3)`, `u=(10,10)`, levels 1
and 3. -/
theorem size_nonincreasing_witness :
    ∃ s s', getSize 1 4 ⟨3, 3⟩ ⟨10, 10⟩ = some s ∧
      getSize 3 4 ⟨3, 3⟩ ⟨10, 10⟩ = some s' ∧ s'.x ≤ s.x ∧ s'.y ≤ s.y :=
  size_nonincreasing 1 3 4 ⟨3, 3⟩ ⟨10, 10⟩ (by decide) (by decide) (by decide)
    (by decide) (by decide) (by decide) (by decide) (by decide)

/-- C5, as stated, fails: at `m=1`, `w=(1,1)`, `u=(2,2)` (fovea offset `(0,0)`)
`getSize(m,m,w,u)` is `w = (1,1)`, not `u`, and the rectangle `MMF_CPU` extracts
at `k = m` is the single pixel at the origin, not the full image. -/
theorem outermost_is_full_refuted :
    getSize 1 1 ⟨1, 1⟩ ⟨2, 2⟩ = some ⟨1, 1⟩ ∧
    getSize 1 1 ⟨1, 1⟩ ⟨2, 2⟩ ≠ some ⟨2, 2⟩ ∧
    cropRect 1 1 ⟨1, 1⟩ ⟨2, 2⟩ ⟨0, 0⟩ = some ⟨0, 0, 1, 1⟩ ∧
    cropRect 1 1 ⟨1, 1⟩ ⟨2, 2⟩ ⟨0, 0⟩ ≠ some (fullRect ⟨2, 2⟩) := by
  decide

/-- C5, amended: for every `m ≥ 1`, `getSize(0,m,w,u) = u` (level 0 is the whole
image) and `getSize(m,m,w,u) = w`; the region `MMF_CPU` extracts and returns
unresampled at `k = m` is the rectangle of origin `getDelta(m,m,w,u,f)` and
extent `w`. -/
theorem last_level_is_window {α : Type} (interp : Mat α → Int → Int → Int → Int → α)
    (img : Mat α) (m : Int) (w u f : Point) (hm : 1 ≤ m) :
    getSize 0 m w u = some u ∧ getSize m m w u = some w ∧
    ∃ d, getDelta m m w u f = some d ∧
      cropRect m m w u f = some ⟨d.x, d.y, w.x, w.y⟩ ∧
      MMF_CPU interp img m m w u f = img.roi ⟨d.x, d.y, w.x, w.y⟩ := by
  have hm0 : m ≠ 0 := by omega
  have hs0 : getSize 0 m w u = some u := by
    rw [getSize_eq 0 m w u hm0, size_zero m w.x u.x hm0, size_zero m w.y u.y hm0]
  have hsm : getSize m m w u = some w := by
    rw [getSize_eq m m w u hm0, size_last m w.x u.x hm0, size_last m w.y u.y hm0]
  refine ⟨hs0, hsm, _, getDelta_eq m m w u f hm0, ?_, ?_⟩
  · rw [cropRect_eq m m w u f hm0, size_last m w.x u.x hm0, size_last m w.y u.y hm0]
  · simp [MMF_CPU, getDelta_eq m m w u f hm0, hsm]

/-- Witness for `last_level_is_window`: a 2 by 2 image, `m=1`, `w=(1,1)`. -/
theorem last_level_is_window_witness :
    getSize 0 1 ⟨1, 1⟩ ⟨2, 2⟩ = some ⟨2, 2⟩ ∧ getSize 1 1 ⟨1, 1⟩ ⟨2, 2⟩ = some ⟨1, 1⟩ ∧
    ∃ d, getDelta 1 1 ⟨1, 1⟩ ⟨2, 2⟩ ⟨0, 0⟩ = some d ∧
      cropRect 1 1 ⟨1, 1⟩ ⟨2, 2⟩ ⟨0, 0⟩ = some ⟨d.x, d.y, 1, 1⟩ ∧
      MMF_CPU (fun _ _ _ _ _ => (0 : Int)) ⟨2, 2, fun i j => i + 2 * j⟩ 1 1
          ⟨1, 1⟩ ⟨2, 2⟩ ⟨0, 0⟩
        = Mat.roi ⟨2, 2, fun i j => i + 2 * j⟩ ⟨d.x, d.y, 1, 1⟩ :=
  last_level_is_window (fun _ _ _ _ _ => (0 : Int)) ⟨2, 2, fun i j => i + 2 * j⟩ 1
    ⟨1, 1⟩ ⟨2, 2⟩ ⟨0, 0⟩ (by decide)

/-! ## Truncation against the mathematical floor -/

theorem tdiv_eq_floor (a b : Int) (ha : 0 ≤ a) (hb : 0 < b) :
    Int.tdiv a b = ⌊(a : ℚ) / (b : ℚ)⌋ := by
  rw [Int.tdiv_eq_ediv ha hb.le]
  lift b to ℕ using hb.le
  have := Rat.floor_intCast_div_natCast a b
  rw [← this]
  simp

theorem origin_num_nonneg (k w u f : Int) (hk : 0 ≤ k) (hwu : w ≤ u) (hf : 0 ≤ f) :
    0 ≤ k * (u - w + 2 * f) :=
  Int.mul_nonneg hk (by omega)

theorem size_num_nonneg (k m w u : Int) (hk : 0 ≤ k) (hkm : k ≤ m) (hw : 0 ≤ w)
    (hwu : w ≤ u) : 0 ≤ m * u + w * k - k * u := by
  have h1 : k * (u - w) ≤ m * (u - w) := Int.mul_le_mul_of_nonneg_right hkm (by omega)
  have h2 : 0 ≤ m * w := Int.mul_nonneg (by omega) hw
  rw [size_num]
  nlinarith

/-- C6: for `m ≥ 1`, `0 ≤ k ≤ m`, `0 ≤ w ≤ u`, `0 ≤ f ≤ u` (component-wise),
`getDelta(k,m,w,u,f)` is the mathematical floor of `k (u - w + 2 f) / (2 m)` and
`getSize(k,m,w,u)` is the mathematical floor of `(m u + w k - k u) / m` on each
axis (the quotients taken in the rationals), and each of the four numerators
is non-negative. -/
theorem engine_is_floor (k m : Int) (w u f : Point) (hm : 1 ≤ m)
    (hk : 0 ≤ k) (hkm : k ≤ m) (hwx : 0 ≤ w.x) (hwy : 0 ≤ w.y)
    (hux : w.x ≤ u.x) (huy : w.y ≤ u.y) (hfx : 0 ≤ f.x) (hfy : 0 ≤ f.y)
    (_hfux : f.x ≤ u.x) (_hfuy : f.y ≤ u.y) :
    getDelta k m w u f =
      some ⟨⌊((k : ℚ) * ((u.x : ℚ) - (w.x : ℚ) + 2 * (f.x : ℚ))) / (2 * (m : ℚ))⌋,
        ⌊((k : ℚ) * ((u.y : ℚ) - (w.y : ℚ) + 2 * (f.y : ℚ))) / (2 * (m : ℚ))⌋⟩ ∧
    getSize k m w u =
      some ⟨⌊((m : ℚ) * (u.x : ℚ) + (w.x : ℚ) * (k : ℚ) - (k : ℚ) * (u.x : ℚ)) / (m : ℚ)⌋,
        ⌊((m : ℚ) * (u.y : ℚ) + (w.y : ℚ) * (k : ℚ) - (k : ℚ) * (u.y : ℚ)) / (m : ℚ)⌋⟩ ∧
    0 ≤ k * (u.x - w.x + 2 * f.x) ∧ 0 ≤ k * (u.y - w.y + 2 * f.y) ∧
    0 ≤ m * u.x + w.x * k - k * u.x ∧ 0 ≤ m * u.y + w.y * k - k * u.y := by
  have hm0 : (0 : Int) < m := by omega
  have h2m : (0 : Int) < 2 * m := by omega
  have ndx := origin_num_nonneg k w.x u.x f.x hk hux hfx
  have ndy := origin_num_nonneg k w.y u.y f.y hk huy hfy
  have nsx := size_num_nonneg k m w.x u.x hk hkm hwx hux
  have nsy := size_num_nonneg k m w.y u.y hk hkm hwy huy
  refine ⟨?_, ?_, ndx, ndy, nsx, nsy⟩
  · rw [getDelta_eq k m w u f (by omega), tdiv_eq_floor _ _ ndx h2m,
      tdiv_eq_floor _ _ ndy h2m]
    push_cast
    rfl
  · rw [getSize_eq k m w u (by omega), tdiv_eq_floor _ _ nsx hm0,
      tdiv_eq_floor _ _ nsy hm0]
    push_cast
    rfl

/-- Witness for `engine_is_floor`: `k=1`, `m=4`, `w=(3,3)`, `u=(10,10)`,
`f=(2,5)`. -/
theorem engine_is_floor_witness :
    getDelta 1 4 ⟨3, 3⟩ ⟨10, 10⟩ ⟨2, 5⟩ =
      some ⟨⌊(((1 : Int) : ℚ) * ((((⟨10, 10⟩ : Point).x : Int) : ℚ)
              - (((⟨3, 3⟩ : Point).x : Int) : ℚ) + 2 * (((⟨2, 5⟩ : Point).x : Int) : ℚ)))
            / (2 * ((4 : Int) : ℚ))⌋,
        ⌊(((1 : Int) : ℚ) * ((((⟨10, 10⟩ : Point).y : Int) : ℚ)
              - (((⟨3, 3⟩ : Point).y : Int) : ℚ) + 2 * (((⟨2, 5⟩ : Point).y : Int) : ℚ)))
            / (2 * ((4 : Int) : ℚ))⌋⟩ :=
  (engine_is_floor 1 4 ⟨3, 3⟩ ⟨10, 10⟩ ⟨2, 5⟩ (by decide) (by decide) (by decide)
    (by decide) (by decide) (by decide) (by decide) (by decide) (by decide)
    (by decide) (by decide)).1

/-! ## Rectangles inside the image -/

theorem roi_isSome_of_safeIn {α : Type} (img : Mat α) (r : Rect) (u : Point)
    (hc : img.cols = u.x) (hr : img.rows = u.y) (h : r.safeIn u) :
    (img.roi r).isSome = true := by
  obtain ⟨h1, h2, h3, h4, h5, h6⟩ := h
  have hcond : 0 ≤ r.x ∧ 0 ≤ r.width ∧ r.x + r.width ≤ img.cols ∧
      0 ≤ r.y ∧ 0 ≤ r.height ∧ r.y + r.height ≤ img.rows := by
    refine ⟨h1, by omega, by omega, h2, by omega, by omega⟩
  simp [Mat.roi, hcond]

/-- Both rectangles of level `k` are usable regions when the fovea offset `f`
satisfies `-(u - w) ≤ 2 f ≤ u - w`. -/
theorem rects_safe (k m : Int) (w u f : Point) (hm : 1 ≤ m)
    (hwx : 1 ≤ w.x) (hwy : 1 ≤ w.y) (hux : w.x ≤ u.x) (huy : w.y ≤ u.y)
    (hk : 0 ≤ k) (hkm : k ≤ m)
    (hfx0 : 0 ≤ u.x - w.x + 2 * f.x) (hfy0 : 0 ≤ u.y - w.y + 2 * f.y)
    (hfx : 2 * f.x ≤ u.x - w.x) (hfy : 2 * f.y ≤ u.y - w.y) :
    ∃ c d, cropRect k m w u f = some c ∧ destRect k m w u f = some d ∧
      c.safeIn u ∧ d.safeIn u := by
  have hm0 : (0 : Int) < m := by omega
  refine ⟨_, _, cropRect_eq k m w u f (by omega),
    destRect_eq k m w u f hm0 (by omega) (by omega), ?_, ?_⟩
  · have ox := origin_nonneg k m w.x u.x f.x hm0 hk hfx0
    have oy := origin_nonneg k m w.y u.y f.y hm0 hk hfy0
    have sx := size_ge k m w.x u.x hm0 hux hkm
    have sy := size_ge k m w.y u.y hm0 huy hkm
    have cx := crop_within k m w.x u.x f.x hm0 hk hkm (by omega) hux hfx0 hfx
    have cy := crop_within k m w.y u.y f.y hm0 hk hkm (by omega) huy hfy0 hfy
    simp only [Rect.safeIn]
    omega
  · have ox := origin_nonneg k m w.x u.x f.x hm0 hk hfx0
    have oy := origin_nonneg k m w.y u.y f.y hm0 hk hfy0
    have ex := extent_ge k m w.x u.x f.x hm0 hk hkm (by omega) hux hfx0
    have ey := extent_ge k m w.y u.y f.y hm0 hk hkm (by omega) huy hfy0
    have cx := corner_le k m w.x u.x f.x hm0 hk hfx
    have cy := corner_le k m w.y u.y f.y hm0 hk hfy
    simp only [Rect.safeIn]
    omega

/-- C7: for `f = (0,0)`, `m ≥ 1`, `1 ≤ w ≤ u` and `0 ≤ k ≤ m`, the crop
rectangle and the destination rectangle of level `k` are defined, have a
non-negative origin, an extent of at least 1 on each axis and end within `u`;
so extracting either from an image of size `u` succeeds. -/
theorem corner_fovea_safe {α : Type} (img : Mat α) (k m : Int) (w u : Point)
    (hm : 1 ≤ m) (hwx : 1 ≤ w.x) (hwy : 1 ≤ w.y) (hux : w.x ≤ u.x) (huy : w.y ≤ u.y)
    (hk : 0 ≤ k) (hkm : k ≤ m) (hc : img.cols = u.x) (hr : img.rows = u.y) :
    ∃ c d, cropRect k m w u ⟨0, 0⟩ = some c ∧ destRect k m w u ⟨0, 0⟩ = some d ∧
      c.safeIn u ∧ d.safeIn u ∧
      (img.roi c).isSome = true ∧ (img.roi d).isSome = true := by
  obtain ⟨c, d, hcr, hd, hcs, hds⟩ :=
    rects_safe k m w u ⟨0, 0⟩ hm hwx hwy hux huy hk hkm
      (by show 0 ≤ u.x - w.x + 2 * 0; omega) (by show 0 ≤ u.y - w.y + 2 * 0; omega)
      (by show 2 * 0 ≤ u.x - w.x; omega) (by show 2 * 0 ≤ u.y - w.y; omega)
  exact ⟨c, d, hcr, hd, hcs, hds, roi_isSome_of_safeIn img c u hc hr hcs,
    roi_isSome_of_safeIn img d u hc hr hds⟩

/-- Witness for `corner_fovea_safe`: a 10 by 10 image, `m=4`, `w=(3,3)`,
level 1. -/
theorem corner_fovea_safe_witness :
    ∃ c d, cropRect 1 4 ⟨3, 3⟩ ⟨10, 10⟩ ⟨0, 0⟩ = some c ∧
      destRect 1 4 ⟨3, 3⟩ ⟨10, 10⟩ ⟨0, 0⟩ = some d ∧
      c.safeIn ⟨10, 10⟩ ∧ d.safeIn ⟨10, 10⟩ ∧
      (Mat.roi (⟨10, 10, fun i j => i + 10 * j⟩ : Mat Int) c).isSome = true ∧
      (Mat.roi (⟨10, 10, fun i j => i + 10 * j⟩ : Mat Int) d).isSome = true :=
  corner_fovea_safe ⟨10, 10, fun i j => i + 10 * j⟩ 1 4 ⟨3, 3⟩ ⟨10, 10⟩
    (by decide) (by decide) (by decide) (by decide) (by decide) (by decide)
    (by decide) rfl rfl

/-- C8, as stated, fails: at `m=1`, `w=(2,2)`, `u=(2,2)` and the midpoint
`f = (u.x/2, u.y/2) = (1,1)`, level 1 has `getDelta = (1,1)` and
`getSize = (2,2)`, so `getDelta + getSize = (3,3)` exceeds `u`. -/
theorem midpoint_fovea_refuted :
    (⟨Int.tdiv 2 2, Int.tdiv 2 2⟩ : Point) = ⟨1, 1⟩ ∧
    getDelta 1 1 ⟨2, 2⟩ ⟨2, 2⟩ ⟨1, 1⟩ = some ⟨1, 1⟩ ∧
    getSize 1 1 ⟨2, 2⟩ ⟨2, 2⟩ = some ⟨2, 2⟩ ∧
    ¬ ((1 : Int) + 2 ≤ 2) := by
  decide

/-- C8, amended: for `m ≥ 1`, `1 ≤ w ≤ u`, a fovea offset `f` with
`-(u - w) ≤ 2 f ≤ u - w` (component-wise; `f = (0,0)` is the fovea at the image
midpoint) and `0 ≤ k ≤ m`, `getDelta` is non-negative and
`getDelta + getSize ≤ u` component-wise. -/
theorem centered_crop_within (k m : Int) (w u f : Point) (hm : 1 ≤ m)
    (hwx : 1 ≤ w.x) (hwy : 1 ≤ w.y) (hux : w.x ≤ u.x) (huy : w.y ≤ u.y)
    (hk : 0 ≤ k) (hkm : k ≤ m)
    (hfx0 : -(u.x - w.x) ≤ 2 * f.x) (hfy0 : -(u.y - w.y) ≤ 2 * f.y)
    (hfx : 2 * f.x ≤ u.x - w.x) (hfy : 2 * f.y ≤ u.y - w.y) :
    ∃ d s, getDelta k m w u f = some d ∧ getSize k m w u = some s ∧
      0 ≤ d.x ∧ 0 ≤ d.y ∧ d.x + s.x ≤ u.x ∧ d.y + s.y ≤ u.y := by
  have hm0 : (0 : Int) < m := by omega
  exact ⟨_, _, getDelta_eq k m w u f (by omega), getSize_eq k m w u (by omega),
    origin_nonneg k m w.x u.x f.x hm0 hk (by omega),
    origin_nonneg k m w.y u.y f.y hm0 hk (by omega),
    crop_within k m w.x u.x f.x hm0 hk hkm (by omega) hux (by omega) hfx,
    crop_within k m w.y u.y f.y hm0 hk hkm (by omega) huy (by omega) hfy⟩

/-- Witness for `centered_crop_within`: `k=3`, `m=4`, `w=(3,3)`, `u=(10,10)`,
`f=(2,-3)`. -/
theorem centered_crop_within_witness :
    ∃ d s, getDelta 3 4 ⟨3, 3⟩ ⟨10, 10⟩ ⟨2, -3⟩ = some d ∧
      getSize 3 4 ⟨3, 3⟩ ⟨10, 10⟩ = some s ∧
      0 ≤ d.x ∧ 0 ≤ d.y ∧ d.x + s.x ≤ (⟨10, 10⟩ : Point).x ∧
      d.y + s.y ≤ (⟨10, 10⟩ : Point).y :=
  centered_crop_within 3 4 ⟨3, 3⟩ ⟨10, 10⟩ ⟨2, -3⟩ (by decide) (by decide) (by decide)
    (by decide) (by decide) (by decide) (by decide) (by decide) (by decide)
    (by decide) (by decide)

/-- C9, as stated, fails: for `m = 0` (level `k = 0`, `w=(1,1)`, `u=(2,2)`,
`f=(0,0)`) each of `getDelta`, `getSize` and `mapLevel2Image` divides by zero,
and for `m = 1` with `w = (0,0)` so does `mapLevel2Image`. -/
theorem division_by_zero_reached :
    getDelta 0 0 ⟨1, 1⟩ ⟨2, 2⟩ ⟨0, 0⟩ = none ∧
    getSize 0 0 ⟨1, 1⟩ ⟨2, 2⟩ = none ∧
    mapLevel2Image 0 0 ⟨1, 1⟩ ⟨2, 2⟩ ⟨0, 0⟩ ⟨0, 0⟩ = none ∧
    mapLevel2Image 0 1 ⟨0, 0⟩ ⟨2, 2⟩ ⟨0, 0⟩ ⟨0, 0⟩ = none := by
  decide

/-- C9, amended: for every `m ≥ 1` and every `k`, `w`, `u`, `f`, `getDelta` and
`getSize` evaluate without a division by zero, and so does `mapLevel2Image` at
every `px` when moreover `w.x ≥ 1` and `w.y ≥ 1`. -/
theorem no_division_by_zero (k m : Int) (w u f px : Point) (hm : 1 ≤ m) :
    (getDelta k m w u f).isSome = true ∧ (getSize k m w u).isSome = true ∧
    (1 ≤ w.x → 1 ≤ w.y → (mapLevel2Image k m w u f px).isSome = true) := by
  refine ⟨?_, ?_, ?_⟩
  · rw [getDelta_eq k m w u f (by omega)]; rfl
  · rw [getSize_eq k m w u (by omega)]; rfl
  · intro hx hy
    rw [mapLevel2Image_eq k m w u f px (by omega) (by omega) (by omega)]; rfl

/-- Witness for `no_division_by_zero`: `k=1`, `m=4`, `w=(3,3)`, `u=(10,10)`,
`f=(0,0)`, `px=(3,3)`. -/
theorem no_division_by_zero_witness :
    (getDelta 1 4 ⟨3, 3⟩ ⟨10, 10⟩ ⟨0, 0⟩).isSome = true ∧
    (getSize 1 4 ⟨3, 3⟩ ⟨10, 10⟩).isSome = true ∧
    (mapLevel2Image 1 4 ⟨3, 3⟩ ⟨10, 10⟩ ⟨0, 0⟩ ⟨3, 3⟩).isSome = true :=
  have h := no_division_by_zero 1 4 ⟨3, 3⟩ ⟨10, 10⟩ ⟨0, 0⟩ ⟨3, 3⟩ (by decide)
  ⟨h.1, h.2.1, h.2.2 (by decide) (by decide)⟩

/-! ## The merge loop -/

theorem foveatedStep_some {α : Type} (interp : Mat α → Int → Int → Int → Int → α)
    (img : Mat α) (m : Int) (w u f : Point) (acc acc' : Mat α) (k : Int)
    (h : foveatedStep interp img m w u f acc k = some acc') :
    ∃ r c, destRect k m w u f = some r ∧
      levelContent interp img k m w u f r = some c ∧ copyTo c acc r = some acc' := by
  unfold foveatedStep at h
  unfold destRect levelContent
  cases hl : MMF_CPU interp img k m w u f with
  | none => simp [hl] at h
  | some lvl =>
    cases hi : mapLevel2Image k m w u f ⟨0, 0⟩ with
    | none => simp [hl, hi] at h
    | some ini =>
      cases hf : mapLevel2Image k m w u f ⟨w.x, w.y⟩ with
      | none => simp [hl, hi, hf] at h
      | some fin =>
        simp only [hl, hi, hf, Option.bind_eq_bind, Option.some_bind] at h
        by_cases hk : k < m
        · simp only [hk, if_true] at h
          cases hr : resize interp lvl (fin.x - ini.x) (fin.y - ini.y) with
          | none => simp [hr] at h
          | some c =>
            simp only [hr, Option.some_bind] at h
            exact ⟨_, c, rfl, by simp [hk, hr], h⟩
        · simp only [hk, if_false] at h
          exact ⟨_, lvl, rfl, by simp [hk], h⟩

theorem copyTo_pix_mem {α : Type} (c acc acc' : Mat α) (r : Rect) (i j : Int)
    (h : copyTo c acc r = some acc') (hin : r.mem i j) :
    acc'.pix i j = c.pix (i - r.x) (j - r.y) := by
  unfold copyTo at h
  split at h
  · simp only [Option.some.injEq] at h
    subst h
    have hin' : r.x ≤ i ∧ i < r.x + r.width ∧ r.y ≤ j ∧ j < r.y + r.height := hin
    simp [hin']
  · simp at h

theorem copyTo_pix_not_mem {α : Type} (c acc acc' : Mat α) (r : Rect) (i j : Int)
    (h : copyTo c acc r = some acc') (hout : ¬ r.mem i j) :
    acc'.pix i j = acc.pix i j := by
  unfold copyTo at h
  split at h
  · simp only [Option.some.injEq] at h
    subst h
    have hout' : ¬ (r.x ≤ i ∧ i < r.x + r.width ∧ r.y ≤ j ∧ j < r.y + r.height) := hout
    simp only [hout', if_false]
  · simp at h

theorem copyTo_dims {α : Type} (c acc acc' : Mat α) (r : Rect)
    (h : copyTo c acc r = some acc') :
    acc'.cols = acc.cols ∧ acc'.rows = acc.rows := by
  unfold copyTo at h
  split at h
  · simp only [Option.some.injEq] at h
    subst h
    exact ⟨rfl, rfl⟩
  · simp at h

/-- A pixel that no destination rectangle of the levels in `ks` covers keeps
its value through the loop over `ks`. -/
theorem fold_untouched {α : Type} (interp : Mat α → Int → Int → Int → Int → α)
    (img : Mat α) (m : Int) (w u f : Point) (i j : Int) (ks : List Int) :
    ∀ (acc out : Mat α),
      ks.foldlM (foveatedStep interp img m w u f) acc = some out →
      (∀ k ∈ ks, ∀ r, destRect k m w u f = some r → ¬ r.mem i j) →
      out.pix i j = acc.pix i j := by
  induction ks with
  | nil =>
    intro acc out h _
    simp only [List.foldlM_nil] at h
    cases h
    rfl
  | cons k ks ih =>
    intro acc out h hno
    rw [List.foldlM_cons] at h
    cases hs : foveatedStep interp img m w u f acc k with
    | none => simp [hs] at h
    | some a =>
      rw [hs] at h
      obtain ⟨r, c, hr, _, hcp⟩ := foveatedStep_some interp img m w u f acc a k hs
      have h1 : a.pix i j = acc.pix i j :=
        copyTo_pix_not_mem c acc a r i j hcp (hno k (List.mem_cons_self _ _) r hr)
      have h2 := ih a out h (fun k' hk' => hno k' (List.mem_cons_of_mem _ hk'))
      rw [h2, h1]

theorem levels_snoc (m : Int) (hm : 0 ≤ m) :
    levels m = (List.range m.toNat).map Int.ofNat ++ [m] := by
  have h1 : (m + 1).toNat = m.toNat + 1 := by omega
  have h2 : Int.ofNat m.toNat = m := by
    show ((m.toNat : Nat) : Int) = m
    omega
  rw [levels, h1, List.range_succ, List.map_append, List.map_singleton, h2]

theorem levels_cons (m : Int) (hm : 0 ≤ m) :
    levels m = 0 :: (List.range m.toNat).map (fun n => Int.ofNat (n + 1)) := by
  have h1 : (m + 1).toNat = m.toNat + 1 := by omega
  rw [levels, h1, List.range_succ_eq_map, List.map_cons, List.map_map]
  rfl

theorem levels_sorted (m : Int) : (levels m).Pairwise (fun a b => a < b) := by
  unfold levels
  rw [List.pairwise_map]
  exact (List.pairwise_lt_range _).imp (fun h => Int.ofNat_lt.2 h)

theorem levels_ends (m : Int) (hm : 0 ≤ m) :
    (levels m).head? = some 0 ∧ (levels m).getLast? = some m := by
  constructor
  · rw [levels_cons m hm]; rfl
  · rw [levels_snoc m hm]; simp

theorem levelContent_last {α : Type} (interp : Mat α → Int → Int → Int → Int → α)
    (img : Mat α) (m : Int) (w u f : Point) (r : Rect) (c : Mat α)
    (h : levelContent interp img m m w u f r = some c) :
    ∃ cr, cropRect m m w u f = some cr ∧ img.roi cr = some c := by
  unfold levelContent MMF_CPU at h
  unfold cropRect
  cases hd : getDelta m m w u f with
  | none => simp [hd] at h
  | some d =>
    cases hs : getSize m m w u with
    | none => simp [hd, hs] at h
    | some sz =>
      simp only [hd, hs, Option.bind_eq_bind, Option.some_bind, lt_self_iff_false,
        if_false] at h
      cases hr : img.roi ⟨d.x, d.y, sz.x, sz.y⟩ with
      | none => simp [hr] at h
      | some lvl =>
        simp only [hr, Option.some_bind, Option.pure_def, Option.some.injEq] at h
        subst h
        exact ⟨_, rfl, hr⟩

/-- C3, as stated, fails: on the 2 by 2 image with pixels 10, 20, 30, 40, with
`m=1`, `w=(1,1)`, `f=(0,0)`, the loop visits level 0 first and level 1 last; the
pixel `(0,0)` lies in `R(0) = (0,0,2,2)`, where level 0's resampled content is
25, and the returned image holds 10 there, the source pixel written by
level 1. -/
theorem center_preservation_refuted :
    levels 1 = [0, 1] ∧
    destRect 0 1 ⟨1, 1⟩ ⟨2, 2⟩ ⟨0, 0⟩ = some ⟨0, 0, 2, 2⟩ ∧
    Rect.mem ⟨0, 0, 2, 2⟩ 0 0 ∧
    (levelContent meanInterp img22 0 1 ⟨1, 1⟩ ⟨2, 2⟩ ⟨0, 0⟩ ⟨0, 0, 2, 2⟩).map
      (fun c => c.pix (0 - 0) (0 - 0)) = some 25 ∧
    (foveated meanInterp img22 1 ⟨1, 1⟩ ⟨2, 2⟩ ⟨0, 0⟩ 0).map (fun o => o.pix 0 0)
      = some 10 := by
  decide

/-- C3, amended: in the image returned by `foveated` (CPU path, `m ≥ 1`) the
levels are merged in ascending order `k = 0, ..., m` (the loop's level list is
strictly increasing, starts at 0 and ends at `m`), so level `m` is the last
level written: every pixel inside the level-`m` destination rectangle `R(m)`
holds level `m`'s content, which is the unresampled crop of the source, and a
pixel of `R(0)` holds level 0's resampled content where no destination
rectangle `R(k)` with `1 ≤ k ≤ m` covers it. -/
theorem last_level_preserved {α : Type} (interp : Mat α → Int → Int → Int → Int → α)
    (img out : Mat α) (m : Int) (w u f : Point) (hm : 1 ≤ m)
    (h : foveated interp img m w u f 0 = some out) :
    (levels m).Pairwise (fun a b => a < b) ∧
    (levels m).head? = some 0 ∧ (levels m).getLast? = some m ∧
    ∃ rm cm r0 c0 cr,
      destRect m m w u f = some rm ∧ levelContent interp img m m w u f rm = some cm ∧
      cropRect m m w u f = some cr ∧ img.roi cr = some cm ∧
      destRect 0 m w u f = some r0 ∧ levelContent interp img 0 m w u f r0 = some c0 ∧
      (∀ i j, rm.mem i j → out.pix i j = cm.pix (i - rm.x) (j - rm.y)) ∧
      (∀ i j, r0.mem i j →
        (∀ k r, 1 ≤ k → k ≤ m → destRect k m w u f = some r → ¬ r.mem i j) →
        out.pix i j = c0.pix (i - r0.x) (j - r0.y)) := by
  refine ⟨levels_sorted m, (levels_ends m (by omega)).1, (levels_ends m (by omega)).2, ?_⟩
  have h' : (levels m).foldlM (foveatedStep interp img m w u f) img = some out := by
    simpa [foveated] using h
  -- the last iteration is level `m`
  have hA := h'
  rw [levels_snoc m (by omega), List.foldlM_append] at hA
  cases hpre : ((List.range m.toNat).map Int.ofNat).foldlM
      (foveatedStep interp img m w u f) img with
  | none => simp [hpre] at hA
  | some a =>
    rw [hpre] at hA
    have hlast : foveatedStep interp img m w u f a m = some out := by
      simpa using hA
    obtain ⟨rm, cm, hrm, hcm, hcpm⟩ := foveatedStep_some interp img m w u f a out m hlast
    obtain ⟨cr, hcr, hroi⟩ := levelContent_last interp img m w u f rm cm hcm
    -- the first iteration is level 0
    have hB := h'
    rw [levels_cons m (by omega), List.foldlM_cons] at hB
    cases hfirst : foveatedStep interp img m w u f img 0 with
    | none => simp [hfirst] at hB
    | some a1 =>
      rw [hfirst] at hB
      have hrest : ((List.range m.toNat).map (fun n => Int.ofNat (n + 1))).foldlM
          (foveatedStep interp img m w u f) a1 = some out := by
        simpa using hB
      obtain ⟨r0, c0, hr0, hc0, hcp0⟩ :=
        foveatedStep_some interp img m w u f img a1 0 hfirst
      refine ⟨rm, cm, r0, c0, cr, hrm, hcm, hcr, hroi, hr0, hc0, ?_, ?_⟩
      · intro i j hin
        exact copyTo_pix_mem cm a out rm i j hcpm hin
      · intro i j hin hfree
        have hkeep := fold_untouched interp img m w u f i j _ a1 out hrest (by
          intro k hk r hr
          obtain ⟨n, hn, rfl⟩ := List.mem_map.1 hk
          have hn' : n < m.toNat := List.mem_range.1 hn
          refine hfree _ r ?_ ?_ hr
          · show (1 : Int) ≤ ((n + 1 : Nat) : Int)
            omega
          · show ((n + 1 : Nat) : Int) ≤ m
            omega)
        rw [hkeep]
        exact copyTo_pix_mem c0 img a1 r0 i j hcp0 hin

/-- Witness for `last_level_preserved`: the 2 by 2 test image, `m=1`,
`w=(1,1)`, `f=(0,0)`, on which `foveated` returns an image. -/
theorem last_level_preserved_witness :
    ∃ out, foveated meanInterp img22 1 ⟨1, 1⟩ ⟨2, 2⟩ ⟨0, 0⟩ 0 = some out ∧
    (levels 1).Pairwise (fun a b => a < b) ∧
    (levels 1).head? = some 0 ∧ (levels 1).getLast? = some 1 ∧
    ∃ rm cm r0 c0 cr,
      destRect 1 1 ⟨1, 1⟩ ⟨2, 2⟩ ⟨0, 0⟩ = some rm ∧
      levelContent meanInterp img22 1 1 ⟨1, 1⟩ ⟨2, 2⟩ ⟨0, 0⟩ rm = some cm ∧
      cropRect 1 1 ⟨1, 1⟩ ⟨2, 2⟩ ⟨0, 0⟩ = some cr ∧ img22.roi cr = some cm ∧
      destRect 0 1 ⟨1, 1⟩ ⟨2, 2⟩ ⟨0, 0⟩ = some r0 ∧
      levelContent meanInterp img22 0 1 ⟨1, 1⟩ ⟨2, 2⟩ ⟨0, 0⟩ r0 = some c0 ∧
      (∀ i j, rm.mem i j → out.pix i j = cm.pix (i - rm.x) (j - rm.y)) ∧
      (∀ i j, r0.mem i j →
        (∀ k r, 1 ≤ k → k ≤ 1 → destRect k 1 ⟨1, 1⟩ ⟨2, 2⟩ ⟨0, 0⟩ = some r →
          ¬ r.mem i j) →
        out.pix i j = c0.pix (i - r0.x) (j - r0.y)) :=
  have hs : (foveated meanInterp img22 1 ⟨1, 1⟩ ⟨2, 2⟩ ⟨0, 0⟩ 0).isSome = true := by
    decide
  ⟨Option.get _ hs, (Option.some_get hs).symm,
    last_level_preserved meanInterp img22 _ 1 ⟨1, 1⟩ ⟨2, 2⟩ ⟨0, 0⟩ (by decide)
      (Option.some_get hs).symm⟩

/-! ## The single-level configuration -/

theorem foveatedStep_eq {α : Type} (interp : Mat α → Int → Int → Int → Int → α)
    (img : Mat α) (m : Int) (w u f : Point) (acc : Mat α) (k : Int) (r : Rect)
    (c : Mat α) (hr : destRect k m w u f = some r)
    (hc : levelContent interp img k m w u f r = some c) :
    foveatedStep interp img m w u f acc k = copyTo c acc r := by
  unfold destRect at hr
  unfold levelContent at hc
  unfold foveatedStep
  cases hl : MMF_CPU interp img k m w u f with
  | none => simp [hl] at hc
  | some lvl =>
    cases hi : mapLevel2Image k m w u f ⟨0, 0⟩ with
    | none => simp [hi] at hr
    | some ini =>
      cases hf : mapLevel2Image k m w u f ⟨w.x, w.y⟩ with
      | none => simp [hi, hf] at hr
      | some fin =>
        simp only [hi, hf, Option.bind_eq_bind, Option.some_bind, Option.pure_def,
          Option.some.injEq] at hr
        subst hr
        simp only [hl, Option.bind_eq_bind, Option.some_bind] at hc ⊢
        by_cases hk : k < m
        · simp only [hk, if_true] at hc ⊢
          rw [hc]
          rfl
        · simp only [hk, if_false, Option.pure_def, Option.some.injEq] at hc ⊢
          rw [hc]

theorem copyTo_isSome {α : Type} (c acc : Mat α) (r : Rect)
    (h : 0 ≤ r.x ∧ 0 ≤ r.width ∧ r.x + r.width ≤ acc.cols ∧
      0 ≤ r.y ∧ 0 ≤ r.height ∧ r.y + r.height ≤ acc.rows ∧
      c.cols = r.width ∧ c.rows = r.height) :
    ∃ acc', copyTo c acc r = some acc' := by
  unfold copyTo
  rw [if_pos h]
  exact ⟨_, rfl⟩

theorem levelContent_of_last {α : Type} (interp : Mat α → Int → Int → Int → Int → α)
    (img : Mat α) (m : Int) (w u f : Point) (r cr : Rect)
    (hcr : cropRect m m w u f = some cr) :
    levelContent interp img m m w u f r = img.roi cr := by
  unfold cropRect at hcr
  unfold levelContent MMF_CPU
  cases hd : getDelta m m w u f with
  | none => simp [hd] at hcr
  | some d =>
    cases hs : getSize m m w u with
    | none => simp [hd, hs] at hcr
    | some sz =>
      simp only [hd, hs, Option.bind_eq_bind, Option.some_bind, Option.pure_def,
        Option.some.injEq] at hcr
      subst hcr
      cases hroi : img.roi ⟨d.x, d.y, sz.x, sz.y⟩ <;> simp [hroi]

theorem levelContent_of_lt {α : Type} (interp : Mat α → Int → Int → Int → Int → α)
    (img : Mat α) (k m : Int) (w u f : Point) (r cr : Rect) (lvl : Mat α)
    (hk : k < m) (hcr : cropRect k m w u f = some cr) (hroi : img.roi cr = some lvl) :
    levelContent interp img k m w u f r =
      (resize interp lvl w.x w.y).bind (fun a => resize interp a r.width r.height) := by
  unfold cropRect at hcr
  unfold levelContent MMF_CPU
  cases hd : getDelta k m w u f with
  | none => simp [hd] at hcr
  | some d =>
    cases hs : getSize k m w u with
    | none => simp [hd, hs] at hcr
    | some sz =>
      simp only [hd, hs, Option.bind_eq_bind, Option.some_bind, Option.pure_def,
        Option.some.injEq] at hcr
      subst hcr
      simp [hroi, hk]

theorem destRect_first (m : Int) (w u f : Point) (hm : 0 < m)
    (hwx : 0 < w.x) (hwy : 0 < w.y) : destRect 0 m w u f = some (fullRect u) := by
  rw [destRect_eq 0 m w u f hm hwx hwy, corner_zero m w.x u.x f.x hm,
    corner_zero m w.y u.y f.y hm]
  simp [fullRect]

theorem cropRect_first (m : Int) (w u f : Point) (hm : m ≠ 0) :
    cropRect 0 m w u f = some (fullRect u) := by
  rw [cropRect_eq 0 m w u f hm, size_zero m w.x u.x hm, size_zero m w.y u.y hm]
  simp [fullRect]

theorem cropRect_last_full (m : Int) (u : Point) (hm : 0 < m) :
    cropRect m m u u ⟨0, 0⟩ = some (fullRect u) := by
  rw [cropRect_eq m m u u ⟨0, 0⟩ hm.ne', size_last m u.x u.x hm.ne',
    size_last m u.y u.y hm.ne']
  simp [fullRect]

theorem destRect_last_full (m : Int) (u : Point) (hm : 0 < m)
    (hux : 0 < u.x) (huy : 0 < u.y) :
    destRect m m u u ⟨0, 0⟩ = some (fullRect u) := by
  rw [destRect_eq m m u u ⟨0, 0⟩ hm hux huy]
  have hx : 2 * m * u.x - m * (u.x - u.x - 2 * 0) = u.x * (2 * m) := by ring
  have hy : 2 * m * u.y - m * (u.y - u.y - 2 * 0) = u.y * (2 * m) := by ring
  simp only [hx, hy, Int.mul_tdiv_cancel _ (show (2 * m) ≠ 0 by omega)]
  simp [fullRect]

/-- C10, as stated, fails: on a 1 by 1 image with `m=1`, `w=u=(1,1)` and the
fovea `f=(1,1)`, which the invariants allow, the level-1 crop is
`Rect(1,1,1,1)`; it leaves the image and `foveated` returns no image. -/
theorem single_level_identity_refuted :
    cropRect 1 1 ⟨1, 1⟩ ⟨1, 1⟩ ⟨1, 1⟩ = some ⟨1, 1, 1, 1⟩ ∧
    (Mat.roi (⟨1, 1, fun _ _ => 7⟩ : Mat Int) ⟨1, 1, 1, 1⟩).isSome = false ∧
    (foveated meanInterp ⟨1, 1, fun _ _ => 7⟩ 1 ⟨1, 1⟩ ⟨1, 1⟩ ⟨1, 1⟩ 0).isSome = false := by
  decide

/-- C10, amended: for `m = 1`, `w = u` with `u.x ≥ 1`, `u.y ≥ 1`, the fovea offset
`f = (0,0)` and an image of size `u`, `foveated` returns an image, of the size
of the source and equal to the source at every pixel. -/
theorem single_level_identity {α : Type} (interp : Mat α → Int → Int → Int → Int → α)
    (img : Mat α) (u : Point) (hux : 1 ≤ u.x) (huy : 1 ≤ u.y)
    (hc : img.cols = u.x) (hr : img.rows = u.y) :
    ∃ out, foveated interp img 1 u u ⟨0, 0⟩ 0 = some out ∧
      out.cols = img.cols ∧ out.rows = img.rows ∧
      ∀ i j, out.pix i j = img.pix i j := by
  have hfull : 0 ≤ (fullRect u).x ∧ 0 ≤ (fullRect u).width ∧
      (fullRect u).x + (fullRect u).width ≤ img.cols ∧
      0 ≤ (fullRect u).y ∧ 0 ≤ (fullRect u).height ∧
      (fullRect u).y + (fullRect u).height ≤ img.rows := by
    simp only [fullRect]; omega
  -- the crop of both levels is the whole image
  have hroi : img.roi (fullRect u)
      = some ⟨u.x, u.y, fun i j => img.pix (0 + i) (0 + j)⟩ := by
    unfold Mat.roi
    rw [if_pos hfull]
    rfl
  -- level 0: the whole image, resized twice to `u`
  have hc0 : levelContent interp img 0 1 u u ⟨0, 0⟩ (fullRect u)
      = some ⟨u.x, u.y, interp ⟨u.x, u.y,
          interp ⟨u.x, u.y, fun i j => img.pix (0 + i) (0 + j)⟩ u.x u.y⟩ u.x u.y⟩ := by
    rw [levelContent_of_lt interp img 0 1 u u ⟨0, 0⟩ (fullRect u) (fullRect u) _
      (by decide) (cropRect_first 1 u u ⟨0, 0⟩ (by decide)) hroi]
    have hpos : 0 < u.x ∧ 0 < u.y ∧ 0 < u.x ∧ 0 < u.y := by omega
    simp [resize, fullRect, hpos]
  -- level 1: the whole image, unresampled
  have hc1 : levelContent interp img 1 1 u u ⟨0, 0⟩ (fullRect u)
      = some ⟨u.x, u.y, fun i j => img.pix (0 + i) (0 + j)⟩ := by
    rw [levelContent_of_last interp img 1 u u ⟨0, 0⟩ (fullRect u) (fullRect u)
      (cropRect_last_full 1 u (by decide)), hroi]
  have hd0 := destRect_first 1 u u ⟨0, 0⟩ (by decide) (by omega) (by omega)
  have hd1 := destRect_last_full 1 u (by decide) (by omega) (by omega)
  obtain ⟨a1, ha1⟩ := copyTo_isSome (⟨u.x, u.y, interp ⟨u.x, u.y,
      interp ⟨u.x, u.y, fun i j => img.pix (0 + i) (0 + j)⟩ u.x u.y⟩ u.x u.y⟩ : Mat α)
    img (fullRect u) (by
      obtain ⟨h1, h2, h3, h4, h5, h6⟩ := hfull
      exact ⟨h1, h2, h3, h4, h5, h6, rfl, rfl⟩)
  have hdim1 := copyTo_dims _ _ _ _ ha1
  obtain ⟨out, hout⟩ := copyTo_isSome
    (⟨u.x, u.y, fun i j => img.pix (0 + i) (0 + j)⟩ : Mat α) a1 (fullRect u) (by
      obtain ⟨h1, h2, h3, h4, h5, h6⟩ := hfull
      rw [hdim1.1, hdim1.2]
      exact ⟨h1, h2, h3, h4, h5, h6, rfl, rfl⟩)
  have hdim2 := copyTo_dims _ _ _ _ hout
  have hrun : foveated interp img 1 u u ⟨0, 0⟩ 0 = some out := by
    have hl : levels 1 = [0, 1] := by decide
    simp only [foveated, if_true, hl, List.foldlM_cons, List.foldlM_nil]
    rw [foveatedStep_eq interp img 1 u u ⟨0, 0⟩ img 0 _ _ hd0 hc0, ha1]
    simp only [Option.bind_eq_bind, Option.some_bind]
    rw [foveatedStep_eq interp img 1 u u ⟨0, 0⟩ a1 1 _ _ hd1 hc1, hout]
    rfl
  refine ⟨out, hrun, by rw [hdim2.1, hdim1.1], by rw [hdim2.2, hdim1.2], ?_⟩
  intro i j
  by_cases hin : (fullRect u).mem i j
  · rw [copyTo_pix_mem _ _ _ _ i j hout hin]
    simp [fullRect]
  · rw [copyTo_pix_not_mem _ _ _ _ i j hout hin, copyTo_pix_not_mem _ _ _ _ i j ha1 hin]

/-- Witness for `single_level_identity`: the 2 by 2 test image. -/
theorem single_level_identity_witness :
    ∃ out, foveated meanInterp img22 1 ⟨2, 2⟩ ⟨2, 2⟩ ⟨0, 0⟩ 0 = some out ∧
      out.cols = img22.cols ∧ out.rows = img22.rows ∧
      ∀ i j, out.pix i j = img22.pix i j :=
  single_level_identity meanInterp img22 ⟨2, 2⟩ (by decide) (by decide) rfl rfl

/-! ## The destination rectangle against the crop rectangle -/

theorem mapLevel2Image_origin (k m : Int) (w u f : Point) (hm : 0 < m)
    (hwx : 0 < w.x) (hwy : 0 < w.y) :
    mapLevel2Image k m w u f ⟨0, 0⟩ =
      some ⟨Int.tdiv (k * (u.x - w.x + 2 * f.x)) (2 * m),
        Int.tdiv (k * (u.y - w.y + 2 * f.y)) (2 * m)⟩ := by
  rw [mapLevel2Image_eq k m w u f _ hm.ne' hwx.ne' hwy.ne']
  show some (Point.mk _ _) = _
  rw [map_origin k m w.x u.x f.x hm hwx, map_origin k m w.y u.y f.y hm hwy]

theorem mapLevel2Image_corner (k m : Int) (w u f : Point) (hm : 0 < m)
    (hwx : 0 < w.x) (hwy : 0 < w.y) :
    mapLevel2Image k m w u f ⟨w.x, w.y⟩ =
      some ⟨Int.tdiv (2 * m * u.x - k * (u.x - w.x - 2 * f.x)) (2 * m),
        Int.tdiv (2 * m * u.y - k * (u.y - w.y - 2 * f.y)) (2 * m)⟩ := by
  rw [mapLevel2Image_eq k m w u f _ hm.ne' hwx.ne' hwy.ne']
  show some (Point.mk _ _) = _
  rw [map_corner k m w.x u.x f.x hm hwx, map_corner k m w.y u.y f.y hm hwy]

/-- The far corner minus the origin is the crop extent or one more. -/
theorem extent_cases (k m w u f : Int) (hm : 0 < m) (hk : 0 ≤ k) (hkm : k ≤ m)
    (hw : 0 ≤ w) (hwu : w ≤ u) (hf : 0 ≤ u - w + 2 * f) :
    Int.tdiv (2 * m * u - k * (u - w - 2 * f)) (2 * m)
        - Int.tdiv (k * (u - w + 2 * f)) (2 * m)
      = Int.tdiv (m * u + w * k - k * u) m ∨
    Int.tdiv (2 * m * u - k * (u - w - 2 * f)) (2 * m)
        - Int.tdiv (k * (u - w + 2 * f)) (2 * m)
      = Int.tdiv (m * u + w * k - k * u) m + 1 := by
  have h2m : (0 : Int) < 2 * m := by omega
  have ha : 0 ≤ k * (u - w + 2 * f) := Int.mul_nonneg hk hf
  have hn : 0 ≤ m * u + w * k - k * u := size_num_nonneg k m w u hk hkm hw hwu
  have hnum : 2 * m * u - k * (u - w - 2 * f)
      = k * (u - w + 2 * f) + 2 * (m * u + w * k - k * u) := by ring
  have hF : 0 ≤ 2 * m * u - k * (u - w - 2 * f) := by rw [hnum]; omega
  rw [Int.tdiv_eq_ediv hF h2m.le, Int.tdiv_eq_ediv ha h2m.le, Int.tdiv_eq_ediv hn hm.le,
    hnum]
  generalize k * (u - w + 2 * f) = a at *
  generalize m * u + w * k - k * u = n at *
  have a1 := Int.ediv_add_emod a (2 * m)
  have a2 := Int.emod_nonneg a (Int.ne_of_gt h2m)
  have a3 := Int.emod_lt_of_pos a h2m
  have n1 := Int.ediv_add_emod n m
  have n2 := Int.emod_nonneg n (Int.ne_of_gt hm)
  have n3 := Int.emod_lt_of_pos n hm
  have lo : a / (2 * m) + n / m ≤ (a + 2 * n) / (2 * m) := by
    rw [Int.le_ediv_iff_mul_le h2m]
    nlinarith
  have hi : (a + 2 * n) / (2 * m) < a / (2 * m) + n / m + 2 := by
    rw [Int.ediv_lt_iff_lt_mul h2m]
    nlinarith
  omega

/-- C13: for `m ≥ 1`, `1 ≤ w ≤ u` and `-(u - w) ≤ 2 f ≤ u - w` (component-wise),
with `initial(k)` and `final(k)` the images of `(0,0)` and `(w.x,w.y)` under
`mapLevel2Image`: `initial(0) = (0,0)`, `final(0) = u`, and for every
`0 ≤ k < m`, `initial(k) ≤ initial(k+1) ≤ final(k+1) ≤ final(k)`; moreover
`0 ≤ initial(k)` and `final(k) ≤ u`, so every `R(k)` lies within the image. -/
theorem dest_rects_shrink (m : Int) (w u f : Point) (hm : 1 ≤ m)
    (hwx : 1 ≤ w.x) (hwy : 1 ≤ w.y) (hux : w.x ≤ u.x) (huy : w.y ≤ u.y)
    (hfx0 : -(u.x - w.x) ≤ 2 * f.x) (hfy0 : -(u.y - w.y) ≤ 2 * f.y)
    (hfx : 2 * f.x ≤ u.x - w.x) (hfy : 2 * f.y ≤ u.y - w.y) :
    mapLevel2Image 0 m w u f ⟨0, 0⟩ = some ⟨0, 0⟩ ∧
    mapLevel2Image 0 m w u f ⟨w.x, w.y⟩ = some u ∧
    ∀ k : Int, 0 ≤ k → k < m →
      ∃ i0 f0 i1 f1,
        mapLevel2Image k m w u f ⟨0, 0⟩ = some i0 ∧
        mapLevel2Image k m w u f ⟨w.x, w.y⟩ = some f0 ∧
        mapLevel2Image (k + 1) m w u f ⟨0, 0⟩ = some i1 ∧
        mapLevel2Image (k + 1) m w u f ⟨w.x, w.y⟩ = some f1 ∧
        (i0.x ≤ i1.x ∧ i1.x ≤ f1.x ∧ f1.x ≤ f0.x) ∧
        (i0.y ≤ i1.y ∧ i1.y ≤ f1.y ∧ f1.y ≤ f0.y) ∧
        (0 ≤ i0.x ∧ 0 ≤ i0.y ∧ f0.x ≤ u.x ∧ f0.y ≤ u.y) := by
  have hm0 : (0 : Int) < m := by omega
  have hx0 : (0 : Int) < w.x := by omega
  have hy0 : (0 : Int) < w.y := by omega
  refine ⟨?_, ?_, ?_⟩
  · rw [mapLevel2Image_origin 0 m w u f hm0 hx0 hy0]
    simp
  · rw [mapLevel2Image_corner 0 m w u f hm0 hx0 hy0, corner_zero m w.x u.x f.x hm0,
      corner_zero m w.y u.y f.y hm0]
  · intro k hk hkm
    refine ⟨_, _, _, _, mapLevel2Image_origin k m w u f hm0 hx0 hy0,
      mapLevel2Image_corner k m w u f hm0 hx0 hy0,
      mapLevel2Image_origin (k + 1) m w u f hm0 hx0 hy0,
      mapLevel2Image_corner (k + 1) m w u f hm0 hx0 hy0, ?_, ?_, ?_⟩
    · have o := origin_mono k (k + 1) m w.x u.x f.x hm0 (by omega) (by omega)
      have e := extent_ge (k + 1) m w.x u.x f.x hm0 (by omega) (by omega) (by omega)
        hux (by omega)
      have c := corner_antitone k (k + 1) m w.x u.x f.x hm0 (by omega) hfx
      exact ⟨o, by dsimp only; omega, c⟩
    · have o := origin_mono k (k + 1) m w.y u.y f.y hm0 (by omega) (by omega)
      have e := extent_ge (k + 1) m w.y u.y f.y hm0 (by omega) (by omega) (by omega)
        huy (by omega)
      have c := corner_antitone k (k + 1) m w.y u.y f.y hm0 (by omega) hfy
      exact ⟨o, by dsimp only; omega, c⟩
    · exact ⟨origin_nonneg k m w.x u.x f.x hm0 hk (by omega),
        origin_nonneg k m w.y u.y f.y hm0 hk (by omega),
        corner_le k m w.x u.x f.x hm0 hk hfx, corner_le k m w.y u.y f.y hm0 hk hfy⟩

/-- Witness for `dest_rects_shrink`: `m=4`, `w=(3,3)`, `u=(10,10)`, `f=(2,-3)`. -/
theorem dest_rects_shrink_witness :
    mapLevel2Image 0 4 ⟨3, 3⟩ ⟨10, 10⟩ ⟨2, -3⟩ ⟨0, 0⟩ = some ⟨0, 0⟩ ∧
    mapLevel2Image 0 4 ⟨3, 3⟩ ⟨10, 10⟩ ⟨2, -3⟩ ⟨3, 3⟩ = some ⟨10, 10⟩ :=
  have h := dest_rects_shrink 4 ⟨3, 3⟩ ⟨10, 10⟩ ⟨2, -3⟩ (by decide) (by decide)
    (by decide) (by decide) (by decide) (by decide) (by decide) (by decide) (by decide)
  ⟨h.1, h.2.1⟩

/-- C14: for `m ≥ 1`, `w.x ≥ 1`, `w.y ≥ 1` and every `k`, `u`, `f` (of any sign),
`mapLevel2Image(k,m,w,u,f,(0,0))` and `getDelta(k,m,w,u,f)` are both defined and
equal. -/
theorem dest_origin_is_crop_origin (k m : Int) (w u f : Point) (hm : 1 ≤ m)
    (hwx : 1 ≤ w.x) (hwy : 1 ≤ w.y) :
    ∃ d, getDelta k m w u f = some d ∧ mapLevel2Image k m w u f ⟨0, 0⟩ = some d :=
  ⟨_, getDelta_eq k m w u f (by omega),
    mapLevel2Image_origin k m w u f (by omega) (by omega) (by omega)⟩

/-- Witness for `dest_origin_is_crop_origin`: `k=3`, `m=4`, `w=(3,5)`,
`u=(10,7)`, `f=(-9,4)`, where the x numerator is negative. -/
theorem dest_origin_is_crop_origin_witness :
    ∃ d, getDelta 3 4 ⟨3, 5⟩ ⟨10, 7⟩ ⟨-9, 4⟩ = some d ∧
      mapLevel2Image 3 4 ⟨3, 5⟩ ⟨10, 7⟩ ⟨-9, 4⟩ ⟨0, 0⟩ = some d :=
  dest_origin_is_crop_origin 3 4 ⟨3, 5⟩ ⟨10, 7⟩ ⟨-9, 4⟩ (by decide) (by decide)
    (by decide)

/-- C15: for `m ≥ 1`, `0 ≤ k ≤ m`, `1 ≤ w ≤ u` and `u - w + 2 f ≥ 0`
(component-wise), the extent `final - initial` that `foveated` resizes level
`k` to is, on each axis, `getSize` or `getSize + 1`, and at least 1; and the
value `getSize + 1` occurs: `u=(10,10)`, `w=(3,3)`, `m=4`, `k=1`, `f=(0,0)` gives
`9` against `8`. -/
theorem dest_extent_vs_size (k m : Int) (w u f : Point) (hm : 1 ≤ m)
    (hk : 0 ≤ k) (hkm : k ≤ m) (hwx : 1 ≤ w.x) (hwy : 1 ≤ w.y)
    (hux : w.x ≤ u.x) (huy : w.y ≤ u.y)
    (hfx : 0 ≤ u.x - w.x + 2 * f.x) (hfy : 0 ≤ u.y - w.y + 2 * f.y) :
    (∃ ini fin s,
      mapLevel2Image k m w u f ⟨0, 0⟩ = some ini ∧
      mapLevel2Image k m w u f ⟨w.x, w.y⟩ = some fin ∧
      getSize k m w u = some s ∧
      (fin.x - ini.x = s.x ∨ fin.x - ini.x = s.x + 1) ∧
      (fin.y - ini.y = s.y ∨ fin.y - ini.y = s.y + 1) ∧
      1 ≤ fin.x - ini.x ∧ 1 ≤ fin.y - ini.y) ∧
    (mapLevel2Image 1 4 ⟨3, 3⟩ ⟨10, 10⟩ ⟨0, 0⟩ ⟨0, 0⟩ = some ⟨0, 0⟩ ∧
      mapLevel2Image 1 4 ⟨3, 3⟩ ⟨10, 10⟩ ⟨0, 0⟩ ⟨3, 3⟩ = some ⟨9, 9⟩ ∧
      getSize 1 4 ⟨3, 3⟩ ⟨10, 10⟩ = some ⟨8, 8⟩) := by
  have hm0 : (0 : Int) < m := by omega
  refine ⟨⟨_, _, _, mapLevel2Image_origin k m w u f hm0 (by omega) (by omega),
    mapLevel2Image_corner k m w u f hm0 (by omega) (by omega),
    getSize_eq k m w u (by omega),
    extent_cases k m w.x u.x f.x hm0 hk hkm (by omega) hux hfx,
    extent_cases k m w.y u.y f.y hm0 hk hkm (by omega) huy hfy, ?_, ?_⟩, by decide⟩
  · have e := extent_ge k m w.x u.x f.x hm0 hk hkm (by omega) hux hfx
    show 1 ≤ Int.tdiv _ _ - Int.tdiv _ _
    omega
  · have e := extent_ge k m w.y u.y f.y hm0 hk hkm (by omega) huy hfy
    show 1 ≤ Int.tdiv _ _ - Int.tdiv _ _
    omega

/-- Witness for `dest_extent_vs_size`: `k=2`, `m=4`, `w=(3,3)`, `u=(10,10)`,
`f=(1,6)`. -/
theorem dest_extent_vs_size_witness :
    ∃ ini fin s,
      mapLevel2Image 2 4 ⟨3, 3⟩ ⟨10, 10⟩ ⟨1, 6⟩ ⟨0, 0⟩ = some ini ∧
      mapLevel2Image 2 4 ⟨3, 3⟩ ⟨10, 10⟩ ⟨1, 6⟩ ⟨3, 3⟩ = some fin ∧
      getSize 2 4 ⟨3, 3⟩ ⟨10, 10⟩ = some s ∧
      (fin.x - ini.x = s.x ∨ fin.x - ini.x = s.x + 1) ∧
      (fin.y - ini.y = s.y ∨ fin.y - ini.y = s.y + 1) ∧
      1 ≤ fin.x - ini.x ∧ 1 ≤ fin.y - ini.y :=
  (dest_extent_vs_size 2 4 ⟨3, 3⟩ ⟨10, 10⟩ ⟨1, 6⟩ (by decide) (by decide) (by decide)
    (by decide) (by decide) (by decide) (by decide) (by decide) (by decide)).1

/-- C16: for `m ≥ 1` and `0 ≤ w ≤ u`: `getSize(0,m,w,u) = u`, `getSize(m,m,w,u) = w`,
`getSize` is component-wise non-increasing in `k` on `[0,m]`, and
`w ≤ getSize(k,m,w,u) ≤ u` for every `k` in `[0,m]`. -/
theorem size_schedule (m : Int) (w u : Point) (hm : 1 ≤ m)
    (_hwx : 0 ≤ w.x) (_hwy : 0 ≤ w.y) (hux : w.x ≤ u.x) (huy : w.y ≤ u.y) :
    getSize 0 m w u = some u ∧ getSize m m w u = some w ∧
    (∀ k k' : Int, 0 ≤ k → k ≤ k' → k' ≤ m →
      ∃ s s', getSize k m w u = some s ∧ getSize k' m w u = some s' ∧
        s'.x ≤ s.x ∧ s'.y ≤ s.y) ∧
    (∀ k : Int, 0 ≤ k → k ≤ m →
      ∃ s, getSize k m w u = some s ∧
        w.x ≤ s.x ∧ s.x ≤ u.x ∧ w.y ≤ s.y ∧ s.y ≤ u.y) := by
  have hm0 : (0 : Int) < m := by omega
  refine ⟨?_, ?_, ?_, ?_⟩
  · rw [getSize_eq 0 m w u hm0.ne', size_zero m w.x u.x hm0.ne',
      size_zero m w.y u.y hm0.ne']
  · rw [getSize_eq m m w u hm0.ne', size_last m w.x u.x hm0.ne',
      size_last m w.y u.y hm0.ne']
  · intro k k' _ hkk _
    exact ⟨_, _, getSize_eq k m w u hm0.ne', getSize_eq k' m w u hm0.ne',
      size_antitone k k' m w.x u.x hm0 hux hkk, size_antitone k k' m w.y u.y hm0 huy hkk⟩
  · intro k hk hkm
    exact ⟨_, getSize_eq k m w u hm0.ne', size_ge k m w.x u.x hm0 hux hkm,
      size_le k m w.x u.x hm0 hux hk, size_ge k m w.y u.y hm0 huy hkm,
      size_le k m w.y u.y hm0 huy hk⟩

/-- Witness for `size_schedule`: `m=4`, `w=(3,3)`, `u=(10,10)`. -/
theorem size_schedule_witness :
    getSize 0 4 ⟨3, 3⟩ ⟨10, 10⟩ = some ⟨10, 10⟩ ∧
    getSize 4 4 ⟨3, 3⟩ ⟨10, 10⟩ = some ⟨3, 3⟩ :=
  have h := size_schedule 4 ⟨3, 3⟩ ⟨10, 10⟩ (by decide) (by decide) (by decide)
    (by decide) (by decide)
  ⟨h.1, h.2.1⟩

/-! ## Runs of the driver -/

theorem extent_last (m w u f : Int) (hm : 0 < m) (hw : 0 ≤ w)
    (hf : 0 ≤ u - w + 2 * f) :
    Int.tdiv (2 * m * u - m * (u - w - 2 * f)) (2 * m)
      - Int.tdiv (m * (u - w + 2 * f)) (2 * m) = w := by
  have h2m : (0 : Int) < 2 * m := by omega
  have ha : 0 ≤ m * (u - w + 2 * f) := Int.mul_nonneg hm.le hf
  have hnum : 2 * m * u - m * (u - w - 2 * f) = m * (u - w + 2 * f) + w * (2 * m) := by
    ring
  have hs : 0 ≤ m * (u - w + 2 * f) + w * (2 * m) :=
    Int.add_nonneg ha (Int.mul_nonneg hw h2m.le)
  rw [hnum, Int.tdiv_eq_ediv hs h2m.le, Int.tdiv_eq_ediv ha h2m.le,
    Int.add_mul_ediv_right _ _ (Int.ne_of_gt h2m)]
  omega

/-- At level `m` the destination rectangle is the crop rectangle. -/
theorem destRect_last_eq_cropRect (m : Int) (w u f : Point) (hm : 1 ≤ m)
    (hwx : 1 ≤ w.x) (hwy : 1 ≤ w.y)
    (hfx : 0 ≤ u.x - w.x + 2 * f.x) (hfy : 0 ≤ u.y - w.y + 2 * f.y) :
    destRect m m w u f =
      some ⟨Int.tdiv (m * (u.x - w.x + 2 * f.x)) (2 * m),
        Int.tdiv (m * (u.y - w.y + 2 * f.y)) (2 * m), w.x, w.y⟩ ∧
    cropRect m m w u f =
      some ⟨Int.tdiv (m * (u.x - w.x + 2 * f.x)) (2 * m),
        Int.tdiv (m * (u.y - w.y + 2 * f.y)) (2 * m), w.x, w.y⟩ := by
  have hm0 : (0 : Int) < m := by omega
  constructor
  · rw [destRect_eq m m w u f hm0 (by omega) (by omega),
      extent_last m w.x u.x f.x hm0 (by omega) hfx,
      extent_last m w.y u.y f.y hm0 (by omega) hfy]
  · rw [cropRect_eq m m w u f hm0.ne', size_last m w.x u.x hm0.ne',
      size_last m w.y u.y hm0.ne']

theorem levels_mem (m k : Int) (h : k ∈ levels m) : 0 ≤ k ∧ k ≤ m := by
  unfold levels at h
  obtain ⟨n, hn, rfl⟩ := List.mem_map.1 h
  have hn' : n < (m + 1).toNat := List.mem_range.1 hn
  constructor
  · show (0 : Int) ≤ ((n : Nat) : Int)
    omega
  · show ((n : Nat) : Int) ≤ m
    omega

theorem levels_neg (m : Int) (hm : m < 0) : levels m = [] := by
  have h : (m + 1).toNat = 0 := by omega
  rw [levels, h]
  rfl

/-- The value `foveated` returns is written by the iteration of level `m`. -/
theorem foveated_last_step {α : Type} (interp : Mat α → Int → Int → Int → Int → α)
    (img out : Mat α) (m : Int) (w u f : Point) (hm : 0 ≤ m)
    (h : foveated interp img m w u f 0 = some out) :
    ∃ a, foveatedStep interp img m w u f a m = some out := by
  have h' : (levels m).foldlM (foveatedStep interp img m w u f) img = some out := by
    simpa [foveated] using h
  rw [levels_snoc m hm, List.foldlM_append] at h'
  cases hpre : ((List.range m.toNat).map Int.ofNat).foldlM
      (foveatedStep interp img m w u f) img with
  | none => simp [hpre] at h'
  | some a =>
    rw [hpre] at h'
    exact ⟨a, by simpa using h'⟩

theorem roi_eq_of_inside {α : Type} (img : Mat α) (r : Rect)
    (h : 0 ≤ r.x ∧ 0 ≤ r.width ∧ r.x + r.width ≤ img.cols ∧
      0 ≤ r.y ∧ 0 ≤ r.height ∧ r.y + r.height ≤ img.rows) :
    img.roi r = some ⟨r.width, r.height, fun i j => img.pix (r.x + i) (r.y + j)⟩ := by
  unfold Mat.roi
  rw [if_pos h]

/-- With the fovea offset in range, the iteration of every level `0 ≤ k ≤ m`
succeeds and keeps the size of the composed image. -/
theorem foveatedStep_ok {α : Type} (interp : Mat α → Int → Int → Int → Int → α)
    (img acc : Mat α) (k m : Int) (w u f : Point) (hm : 1 ≤ m)
    (hwx : 1 ≤ w.x) (hwy : 1 ≤ w.y) (hux : w.x ≤ u.x) (huy : w.y ≤ u.y)
    (hfx0 : -(u.x - w.x) ≤ 2 * f.x) (hfy0 : -(u.y - w.y) ≤ 2 * f.y)
    (hfx : 2 * f.x ≤ u.x - w.x) (hfy : 2 * f.y ≤ u.y - w.y)
    (hk : 0 ≤ k) (hkm : k ≤ m)
    (hc : img.cols = u.x) (hr : img.rows = u.y)
    (hac : acc.cols = u.x) (har : acc.rows = u.y) :
    ∃ acc', foveatedStep interp img m w u f acc k = some acc' ∧
      acc'.cols = u.x ∧ acc'.rows = u.y := by
  obtain ⟨c, d, hcr, hd, hcs, hds⟩ :=
    rects_safe k m w u f hm hwx hwy hux huy hk hkm (by omega) (by omega) hfx hfy
  obtain ⟨c1, c2, c3, c4, c5, c6⟩ := hcs
  obtain ⟨d1, d2, d3, d4, d5, d6⟩ := hds
  have hroi := roi_eq_of_inside img c
    ⟨c1, by omega, by omega, c2, by omega, by omega⟩
  have hcontent : ∃ lc, levelContent interp img k m w u f d = some lc ∧
      lc.cols = d.width ∧ lc.rows = d.height := by
    rcases lt_or_eq_of_le hkm with hlt | heq
    · rw [levelContent_of_lt interp img k m w u f d c _ hlt hcr hroi]
      have p1 : 0 < w.x ∧ 0 < w.y ∧ 0 < c.width ∧ 0 < c.height := by omega
      have p2 : 0 < d.width ∧ 0 < d.height ∧ 0 < w.x ∧ 0 < w.y := by omega
      refine ⟨⟨d.width, d.height, interp ⟨w.x, w.y, interp ⟨c.width, c.height,
        fun i j => img.pix (c.x + i) (c.y + j)⟩ w.x w.y⟩ d.width d.height⟩, ?_, rfl, rfl⟩
      simp [resize, p1, p2]
    · subst heq
      obtain ⟨hd', hcr'⟩ := destRect_last_eq_cropRect k w u f hm hwx hwy
        (by omega) (by omega)
      have hdc : d = c := by
        rw [hd'] at hd
        rw [hcr'] at hcr
        exact (Option.some.inj hd).symm.trans (Option.some.inj hcr)
      rw [levelContent_of_last interp img k w u f d c hcr, hroi]
      exact ⟨_, rfl, by rw [hdc], by rw [hdc]⟩
  obtain ⟨lc, hlc, hlc1, hlc2⟩ := hcontent
  rw [foveatedStep_eq interp img m w u f acc k d lc hd hlc]
  obtain ⟨acc', hacc'⟩ := copyTo_isSome lc acc d
    ⟨d1, by omega, by omega, d2, by omega, by omega, hlc1, hlc2⟩
  have hdims := copyTo_dims lc acc acc' d hacc'
  exact ⟨acc', hacc', by rw [hdims.1, hac], by rw [hdims.2, har]⟩

theorem fold_ok {α : Type} (interp : Mat α → Int → Int → Int → Int → α)
    (img : Mat α) (m : Int) (w u f : Point) (hm : 1 ≤ m)
    (hwx : 1 ≤ w.x) (hwy : 1 ≤ w.y) (hux : w.x ≤ u.x) (huy : w.y ≤ u.y)
    (hfx0 : -(u.x - w.x) ≤ 2 * f.x) (hfy0 : -(u.y - w.y) ≤ 2 * f.y)
    (hfx : 2 * f.x ≤ u.x - w.x) (hfy : 2 * f.y ≤ u.y - w.y)
    (hc : img.cols = u.x) (hr : img.rows = u.y) (ks : List Int) :
    (∀ k ∈ ks, 0 ≤ k ∧ k ≤ m) →
    ∀ acc : Mat α, acc.cols = u.x → acc.rows = u.y →
      ∃ out, ks.foldlM (foveatedStep interp img m w u f) acc = some out ∧
        out.cols = u.x ∧ out.rows = u.y := by
  induction ks with
  | nil =>
    intro _ acc hac har
    exact ⟨acc, rfl, hac, har⟩
  | cons k ks ih =>
    intro hks acc hac har
    obtain ⟨hk, hkm⟩ := hks k (List.mem_cons_self _ _)
    obtain ⟨a, ha, ha1, ha2⟩ := foveatedStep_ok interp img acc k m w u f hm hwx hwy
      hux huy hfx0 hfy0 hfx hfy hk hkm hc hr hac har
    obtain ⟨out, hout, ho1, ho2⟩ :=
      ih (fun k' hk' => hks k' (List.mem_cons_of_mem _ hk')) a ha1 ha2
    refine ⟨out, ?_, ho1, ho2⟩
    rw [List.foldlM_cons, ha]
    exact hout

/-- C12: for `m ≥ 1`, `1 ≤ w ≤ u`, a fovea offset `f` with
`-(u - w) ≤ 2 f ≤ u - w` (component-wise) and a source image of size `u`: the
level-`m` destination rectangle equals the level-`m` crop rectangle, of origin
`getDelta(m,m,w,u,f)` and extent `w = getSize(m,m,w,u)`; `foveated` returns an
image, and that image equals the source on every pixel of the rectangle. -/
theorem fovea_window_untouched {α : Type}
    (interp : Mat α → Int → Int → Int → Int → α) (img : Mat α) (m : Int)
    (w u f : Point) (hm : 1 ≤ m)
    (hwx : 1 ≤ w.x) (hwy : 1 ≤ w.y) (hux : w.x ≤ u.x) (huy : w.y ≤ u.y)
    (hfx0 : -(u.x - w.x) ≤ 2 * f.x) (hfy0 : -(u.y - w.y) ≤ 2 * f.y)
    (hfx : 2 * f.x ≤ u.x - w.x) (hfy : 2 * f.y ≤ u.y - w.y)
    (hc : img.cols = u.x) (hr : img.rows = u.y) :
    ∃ d out,
      getDelta m m w u f = some d ∧ getSize m m w u = some w ∧
      destRect m m w u f = some ⟨d.x, d.y, w.x, w.y⟩ ∧
      cropRect m m w u f = some ⟨d.x, d.y, w.x, w.y⟩ ∧
      foveated interp img m w u f 0 = some out ∧
      out.cols = img.cols ∧ out.rows = img.rows ∧
      ∀ i j, Rect.mem ⟨d.x, d.y, w.x, w.y⟩ i j → out.pix i j = img.pix i j := by
  have hm0 : (0 : Int) < m := by omega
  obtain ⟨hd, hcr⟩ := destRect_last_eq_cropRect m w u f hm hwx hwy (by omega) (by omega)
  have hsz : getSize m m w u = some w := by
    rw [getSize_eq m m w u hm0.ne', size_last m w.x u.x hm0.ne',
      size_last m w.y u.y hm0.ne']
  obtain ⟨out, hfold, ho1, ho2⟩ := fold_ok interp img m w u f hm hwx hwy hux huy
    hfx0 hfy0 hfx hfy hc hr (levels m) (fun k hk => levels_mem m k hk) img hc hr
  have hrun : foveated interp img m w u f 0 = some out := by
    simpa [foveated] using hfold
  refine ⟨_, out, getDelta_eq m m w u f hm0.ne', hsz, hd, hcr, hrun,
    by rw [ho1, hc], by rw [ho2, hr], ?_⟩
  intro i j hin
  obtain ⟨a, hlast⟩ := foveated_last_step interp img out m w u f (by omega) hrun
  obtain ⟨r, lc, hr', hlc, hcp⟩ := foveatedStep_some interp img m w u f a out m hlast
  rw [hd] at hr'
  have hr'' := Option.some.inj hr'
  subst hr''
  rw [levelContent_of_last interp img m w u f _ _ hcr] at hlc
  rw [copyTo_pix_mem lc a out _ i j hcp hin]
  unfold Mat.roi at hlc
  split at hlc
  · have hlc' := Option.some.inj hlc
    subst hlc'
    show img.pix (_ + (i - _)) (_ + (j - _)) = img.pix i j
    congr 1 <;> omega
  · exact absurd hlc (by simp)

/-- Witness for `fovea_window_untouched`: the 3 by 3 test image, `m=1`,
`w=(1,1)`, fovea offset `(1,-1)`. -/
theorem fovea_window_untouched_witness :
    ∃ d out,
      getDelta 1 1 ⟨1, 1⟩ ⟨3, 3⟩ ⟨1, -1⟩ = some d ∧
      getSize 1 1 ⟨1, 1⟩ ⟨3, 3⟩ = some ⟨1, 1⟩ ∧
      destRect 1 1 ⟨1, 1⟩ ⟨3, 3⟩ ⟨1, -1⟩ = some ⟨d.x, d.y, 1, 1⟩ ∧
      cropRect 1 1 ⟨1, 1⟩ ⟨3, 3⟩ ⟨1, -1⟩ = some ⟨d.x, d.y, 1, 1⟩ ∧
      foveated meanInterp img33 1 ⟨1, 1⟩ ⟨3, 3⟩ ⟨1, -1⟩ 0 = some out ∧
      out.cols = img33.cols ∧ out.rows = img33.rows ∧
      ∀ i j, Rect.mem ⟨d.x, d.y, 1, 1⟩ i j → out.pix i j = img33.pix i j :=
  fovea_window_untouched meanInterp img33 1 ⟨1, 1⟩ ⟨3, 3⟩ ⟨1, -1⟩ (by decide)
    (by decide) (by decide) (by decide) (by decide) (by decide) (by decide)
    (by decide) (by decide) rfl rfl

/-! ## Parameters that are not validated -/

/-- With `w` larger than the image on some axis, the iteration of level `m`
fails: its region of extent `w` does not fit. -/
theorem foveatedStep_last_none {α : Type} (interp : Mat α → Int → Int → Int → Int → α)
    (img acc : Mat α) (m : Int) (w u f : Point) (hm : 1 ≤ m)
    (hc : img.cols = u.x) (hr : img.rows = u.y) (hw : u.x < w.x ∨ u.y < w.y) :
    foveatedStep interp img m w u f acc m = none := by
  have hm0 : m ≠ 0 := by omega
  have hlevel : MMF_CPU interp img m m w u f = none := by
    unfold MMF_CPU
    rw [getDelta_eq m m w u f hm0, getSize_eq m m w u hm0, size_last m w.x u.x hm0,
      size_last m w.y u.y hm0]
    have hroi : img.roi ⟨Int.tdiv (m * (u.x - w.x + 2 * f.x)) (2 * m),
        Int.tdiv (m * (u.y - w.y + 2 * f.y)) (2 * m), w.x, w.y⟩ = none := by
      unfold Mat.roi
      rw [if_neg]
      rintro ⟨h1, _, h3, h4, _, h6⟩
      rw [hc] at h3
      rw [hr] at h6
      dsimp only at h1 h3 h4 h6
      omega
    simp [hroi]
  unfold foveatedStep
  simp [hlevel]

/-- C11, as stated, fails: `foveated` validates nothing.  With `m = -1` it
returns an image (2 by 2 test image); with the fovea `f = (-1,-1)` outside the
image it returns an image (3 by 3 test image, `m=1`, `w=(1,1)`); and with
`w = (3,3)` larger than `u = (2,2)` the iteration of level 0 succeeds, so a
level is computed and merged before the call fails at level 1. -/
theorem validation_refuted :
    (foveated meanInterp img22 (-1) ⟨1, 1⟩ ⟨2, 2⟩ ⟨0, 0⟩ 0).isSome = true ∧
    (foveated meanInterp img33 1 ⟨1, 1⟩ ⟨3, 3⟩ ⟨-1, -1⟩ 0).isSome = true ∧
    (foveatedStep meanInterp img22 1 ⟨3, 3⟩ ⟨2, 2⟩ ⟨0, 0⟩ img22 0).isSome = true ∧
    (foveated meanInterp img22 1 ⟨3, 3⟩ ⟨2, 2⟩ ⟨0, 0⟩ 0).isSome = false := by
  decide

/-- C11, amended: `foveated` has no parameter validation.  A call with `m < 0`
computes no level and returns the source image unchanged; a call with `m ≥ 1`
on a source image of size `u` in which `w.x > u.x` or `w.y > u.y` returns no
image, the region of extent `w` of level `m` not fitting the image. -/
theorem unvalidated_parameters {α : Type} (interp : Mat α → Int → Int → Int → Int → α)
    (img : Mat α) (m : Int) (w u f : Point) :
    (m < 0 → levels m = [] ∧ foveated interp img m w u f 0 = some img) ∧
    (1 ≤ m → img.cols = u.x → img.rows = u.y → (u.x < w.x ∨ u.y < w.y) →
      foveated interp img m w u f 0 = none) := by
  constructor
  · intro hm
    refine ⟨levels_neg m hm, ?_⟩
    simp [foveated, levels_neg m hm]
  · intro hm hc hr hw
    cases hrun : foveated interp img m w u f 0 with
    | none => rfl
    | some out =>
      obtain ⟨a, ha⟩ := foveated_last_step interp img out m w u f (by omega) hrun
      rw [foveatedStep_last_none interp img a m w u f hm hc hr hw] at ha
      exact absurd ha (by simp)

/-- Witness for `unvalidated_parameters`: the 2 by 2 test image with `m = -1`,
and with `m = 1`, `w = (3,3)`. -/
theorem unvalidated_parameters_witness :
    (levels (-1) = [] ∧
      foveated meanInterp img22 (-1) ⟨1, 1⟩ ⟨2, 2⟩ ⟨0, 0⟩ 0 = some img22) ∧
    foveated meanInterp img22 1 ⟨3, 3⟩ ⟨2, 2⟩ ⟨0, 0⟩ 0 = none :=
  ⟨(unvalidated_parameters meanInterp img22 (-1) ⟨1, 1⟩ ⟨2, 2⟩ ⟨0, 0⟩).1 (by decide),
    (unvalidated_parameters meanInterp img22 1 ⟨3, 3⟩ ⟨2, 2⟩ ⟨0, 0⟩).2 (by decide) rfl rfl
      (Or.inl (by decide))⟩

end MMF
